import Mathlib

/-!
# MailHog-Server: the SMTP session engine (`smtp/session.go`)

A shallow embedding of `Session` and of its operations `Accept`, `Read`,
`Write`, `logf` and `acceptMessage`.

* A Go `string` is a sequence of bytes: `Text := List Nat`.
* The connection (`io.ReadWriteCloser`) is a script of the results its coming
  `Read` and `Write` calls return; past the end of the read script the peer has
  closed (`0, io.EOF`), past the end of the write script a write succeeds.
* The interpreter `smtp.Protocol`, the storage and the message parser are
  external packages: they are parameters (`Protocol`, `Storage`, `Data`).
* Every effect (log line, read, write, close, parse call, store, channel send)
  is appended to `Session.trace` in the order the code performs it.
* The two `for` loops have no bound in the source; the model takes fuel and
  reports `none` when the fuel ends before the loop does.
* The hooks that the interpreter calls while it parses (`logf`, `acceptMessage`,
  the three `validate` methods) touch neither the connection nor `c.line`;
  `Parse` is a function of the interpreter state and the buffer, and
  `acceptMessage` is modelled on its own. A send on the channel is taken as
  done once it is made.
* A read gives at most 1024 bytes (the size of `buf`); the scripts used here
  keep to that, and no lemma needs it.
-/

namespace MailHog

/-- A Go string, as its bytes. -/
abbrev Text := List Nat

/-- The line terminator, the bytes of the Go literal for carriage return, line feed. -/
def CRLF : Text := [13, 10]

/-- The function `strings.Contains(s, sub)`. -/
def stringsContains : Text → Text → Bool
  | [], sub => sub.isPrefixOf []
  | c :: s, sub => sub.isPrefixOf (c :: s) || stringsContains s sub

/-- The two calls of `strings.Replace` that build `logText`: every line feed becomes
backslash `n`, then every carriage return becomes backslash `r`. -/
def escape (t : Text) : Text :=
  (t.flatMap fun b => if b = 10 then [92, 110] else [b]).flatMap
    fun b => if b = 13 then [92, 114] else [b]

/-- The type `smtp.Reply`: its `Status` and the result of its `Lines()`. -/
structure Reply where
  Status : Int
  lines : List Text
deriving DecidableEq, Repr

/-- The interpreter `smtp.Protocol`, over its own state `σ`: `Start()` and `Parse(line)`. -/
structure Protocol (σ : Type) where
  Start : σ → σ × Reply
  Parse : σ → Text → σ × Text × Option Reply

/-- The interface `storage.Storage`, over the state `τ` of the backend: `Store(m)` returns
the new state, the id and the error (if any). -/
structure Storage (τ M : Type) where
  Store : τ → M → τ × Text × Option Text

/-- What the session uses of the package `data`: `SMTPMessage.Parse(hostname)` and the
field `Message.ID`. -/
structure Data (R M : Type) where
  Parse : R → Text → M
  ID : M → Text

/-- What one call of `c.reader.Read(buf)` returns: the `n` bytes put in `buf` and `err`.
The buffer has 1024 bytes, so a connection gives at most 1024 bytes per read. -/
structure ReadResult where
  data : Text
  err : Option Text
deriving DecidableEq, Repr

/-- An argument of `logf`. -/
inductive LogArg where
  | str (t : Text)
  | num (n : Nat)
deriving DecidableEq, Repr

/-- The effects of a session, as the code performs them. -/
inductive Event (M : Type) where
  | log (format : String) (args : List LogArg)
  | read (data : Text) (err : Option Text)
  | write (l : Text) (failed : Bool)
  | close
  | parse (input : Text) (remainder : Text) (reply : Option Reply)
  | store (m : M) (id : Text) (err : Option Text)
  | send (m : M)
deriving DecidableEq, Repr

/-- The struct `Session`, with the connection as its two scripts and with the trace of
effects. `hostname` is `c.proto.Hostname`. -/
structure Session (σ τ M : Type) where
  reads : List ReadResult
  writeErrs : List Bool
  proto : σ
  hostname : Text
  storage : τ
  messageChan : List M
  remoteAddress : Text
  isTLS : Bool
  line : Text
  trace : List (Event M)

variable {σ τ M R : Type}

/-- The method `logf`: the format gets the prefix, the arguments get the remote address. -/
def logf (c : Session σ τ M) (message : String) (args : List LogArg) : Session σ τ M :=
  { c with trace := c.trace ++ [Event.log ("[SMTP %s]" ++ " " ++ message)
      (LogArg.str c.remoteAddress :: args)] }

/-- The call `c.conn.Close()`. -/
def connClose (c : Session σ τ M) : Session σ τ M :=
  { c with trace := c.trace ++ [Event.close] }

/-- The call `c.reader.Read(buf)`. -/
def connRead (c : Session σ τ M) : ReadResult × Session σ τ M :=
  match c.reads with
  | [] => (⟨[], some [69, 79, 70]⟩, { c with trace := c.trace ++ [Event.read [] (some [69, 79, 70])] })
  | r :: rs => (r, { c with reads := rs, trace := c.trace ++ [Event.read r.data r.err] })

/-- One turn of the loop of `Write`: the log line, then `c.writer.Write([]byte(l))`, whose
result the code drops. -/
def writeLine (c : Session σ τ M) (l : Text) : Session σ τ M :=
  let c := logf c "Sent %d bytes: '%s'" [LogArg.num l.length, LogArg.str (escape l)]
  match c.writeErrs with
  | [] => { c with trace := c.trace ++ [Event.write l false] }
  | e :: es => { c with writeErrs := es, trace := c.trace ++ [Event.write l e] }

/-- The method `Write`. -/
def Write (c : Session σ τ M) (reply : Reply) : Session σ τ M :=
  reply.lines.foldl writeLine c

/-- The loop `for strings.Contains(c.line, CRLF)` of `Read`, with what `Read` returns after
it: `some false` on a 221 reply, `some true` when the loop ends, `none` when the fuel
ends first. -/
def drain (P : Protocol σ) : Nat → Session σ τ M → Option Bool × Session σ τ M
  | 0, c => if stringsContains c.line CRLF then (none, c) else (some true, c)
  | fuel + 1, c =>
    if stringsContains c.line CRLF then
      let res := P.Parse c.proto c.line
      let c1 : Session σ τ M :=
        { c with proto := res.1, line := res.2.1,
                 trace := c.trace ++ [Event.parse c.line res.2.1 res.2.2] }
      match res.2.2 with
      | none => drain P fuel c1
      | some reply =>
        let c2 := Write c1 reply
        if reply.Status = 221 then (some false, connClose c2) else drain P fuel c2
    else (some true, c)

/-- The method `Read`. -/
def Read (P : Protocol σ) (fuel : Nat) (c : Session σ τ M) : Option Bool × Session σ τ M :=
  let rc := connRead c
  let r := rc.1
  let c := rc.2
  if r.data.length = 0 then
    (some false, connClose (logf c "Connection closed by remote host\n" []))
  else
    match r.err with
    | some e => (some false, logf c "Error reading from socket: %s\n" [LogArg.str e])
    | none =>
      let c := logf c "Received %d bytes: '%s'\n" [LogArg.num r.data.length, LogArg.str (escape r.data)]
      drain P fuel { c with line := c.line ++ r.data }

/-- The loop `for session.Read() == true` of `Accept`. -/
def readLoop (P : Protocol σ) (fuel : Nat) : Nat → Session σ τ M → Option Unit × Session σ τ M
  | 0, c => (none, c)
  | n + 1, c =>
    match Read P fuel c with
    | (some true, c1) => readLoop P fuel n c1
    | (some false, c1) => (some (), c1)
    | (none, c1) => (none, c1)

/-- The state of the session that `Accept` builds; `p0` is the result of `smtp.NewProtocol()`. -/
def newSession (remoteAddress : Text) (reads : List ReadResult) (writeErrs : List Bool)
    (storage : τ) (messageChan : List M) (hostname : Text) (p0 : σ) : Session σ τ M :=
  { reads := reads, writeErrs := writeErrs, proto := p0, hostname := hostname,
    storage := storage, messageChan := messageChan, remoteAddress := remoteAddress,
    isTLS := false, line := [], trace := [] }

/-- The function `Accept`. It returns `some ()` when it returns; the deferred `conn.Close()`
runs then, after the last log line. -/
def Accept (P : Protocol σ) (fuel : Nat) (remoteAddress : Text) (reads : List ReadResult)
    (writeErrs : List Bool) (storage : τ) (messageChan : List M) (hostname : Text) (p0 : σ) :
    Option Unit × Session σ τ M :=
  let session : Session σ τ M := newSession remoteAddress reads writeErrs storage messageChan hostname p0
  let session := logf session "Starting session" []
  let st := P.Start session.proto
  let session := Write { session with proto := st.1 } st.2
  match readLoop P fuel fuel session with
  | (some (), c) => (some (), connClose (logf c "Session ended" []))
  | (none, c) => (none, c)

/-- The method `acceptMessage`. -/
def acceptMessage (D : Data R M) (S : Storage τ M) (c : Session σ τ M) (msg : R) :
    (Text × Option Text) × Session σ τ M :=
  let m := D.Parse msg c.hostname
  let c := logf c "Storing message %s" [LogArg.str (D.ID m)]
  let res := S.Store c.storage m
  let c : Session σ τ M := { c with storage := res.1, trace := c.trace ++ [Event.store m res.2.1 res.2.2] }
  let c : Session σ τ M := { c with messageChan := c.messageChan ++ [m], trace := c.trace ++ [Event.send m] }
  ((res.2.1, res.2.2), c)

/-- The method `validateAuthentication`: no error reply, and success. -/
def validateAuthentication (_c : Session σ τ M) (_mechanism : Text) (_args : List Text) :
    Option Reply × Bool := (none, true)

/-- The method `validateRecipient`: every recipient is accepted. -/
def validateRecipient (_c : Session σ τ M) (_to : Text) : Bool := true

/-- The method `validateSender`: every sender is accepted. -/
def validateSender (_c : Session σ τ M) (_from : Text) : Bool := true

/-! ## Reading a trace -/

/-- Number of `Close` calls. -/
def closeCount (t : List (Event M)) : Nat :=
  (t.filter fun e => match e with | Event.close => true | _ => false).length

/-- The lines given to `c.writer.Write`, in order, each with its failure flag. -/
def writes (t : List (Event M)) : List (Text × Bool) :=
  t.filterMap fun e => match e with | Event.write l f => some (l, f) | _ => none

/-- The `Parse` calls, in order: input, remainder, reply. -/
def parses (t : List (Event M)) : List (Text × Text × Option Reply) :=
  t.filterMap fun e => match e with | Event.parse i r rep => some (i, r, rep) | _ => none

/-- The results of the `Read` calls on the connection, in order. -/
def readsOf (t : List (Event M)) : List ReadResult :=
  t.filterMap fun e => match e with | Event.read d err => some ⟨d, err⟩ | _ => none

/-- The lines of the replies that the `Parse` calls returned, in order. -/
def replyLines (ps : List (Text × Text × Option Reply)) : List Text :=
  (ps.filterMap fun p => p.2.2).flatMap fun r => r.lines

/-- The first `Parse` call of a trace that returned a reply of status 221: that reply and the
events after the call. -/
def after221 : List (Event M) → Option (Reply × List (Event M))
  | [] => none
  | Event.parse _ _ (some r) :: t => if r.Status = 221 then some (r, t) else after221 t
  | _ :: t => after221 t

/-- The events of a `Write` of `reply` and nothing else: its lines as they are, no read, no
parse call, no close. -/
def IsWriteOf (reply : Reply) (ws : List (Event M)) : Prop :=
  (writes ws).map Prod.fst = reply.lines ∧ readsOf ws = [] ∧ parses ws = [] ∧ closeCount ws = 0

/-- The session after the first two statements of the loop body of `Read`: `Parse` was
called on `c.line` and `c.line` is its remainder. -/
def afterParse (P : Protocol σ) (c : Session σ τ M) : Session σ τ M :=
  { c with proto := (P.Parse c.proto c.line).1, line := (P.Parse c.proto c.line).2.1,
           trace := c.trace ++
            [Event.parse c.line (P.Parse c.proto c.line).2.1 (P.Parse c.proto c.line).2.2] }

/-- The session when `Read` enters its loop: the bytes were read without error, logged and
appended to `c.line`. -/
def afterRead (c : Session σ τ M) : Session σ τ M :=
  let c1 := logf (connRead c).2 "Received %d bytes: '%s'\n"
    [LogArg.num (connRead c).1.data.length, LogArg.str (escape (connRead c).1.data)]
  { c1 with line := c1.line ++ (connRead c).1.data }

/-- The session when `Accept` enters its loop: the first log line and the greeting are
written. -/
def greeted (P : Protocol σ) (remoteAddress : Text) (reads : List ReadResult)
    (writeErrs : List Bool) (storage : τ) (messageChan : List M) (hostname : Text) (p0 : σ) :
    Session σ τ M :=
  let session : Session σ τ M :=
    logf (newSession remoteAddress reads writeErrs storage messageChan hostname p0)
      "Starting session" []
  Write { session with proto := (P.Start session.proto).1 } (P.Start session.proto).2

/-- The bytes that reached the connection: the lines of the writes that did not fail. -/
def written (t : List (Event M)) : Text :=
  ((writes t).filter fun w => !w.2).flatMap Prod.fst

/-- The trace with every write marked as succeeded. -/
def eraseFailures (t : List (Event M)) : List (Event M) :=
  t.map fun e => match e with
    | Event.write l _ => Event.write l false
    | e => e

/-- The session on a connection whose writes never fail, in the past and in the future. -/
def noFailure (c : Session σ τ M) : Session σ τ M :=
  { c with writeErrs := [], trace := eraseFailures c.trace }

/-! ## Comparing two runs of the loop of `Read` -/

/-- The text before the first CRLF of a buffer and the text after it. -/
def splitCRLF : Text → Option (Text × Text)
  | [] => none
  | b :: s =>
    if CRLF.isPrefixOf (b :: s) then some ([], s.drop 1)
    else (splitCRLF s).map fun p => (b :: p.1, p.2)

/-- The line that a call of `Parse` on `input` has before it: the text up to the first CRLF. -/
def lineOf (input : Text) : Text :=
  ((splitCRLF input).map Prod.fst).getD input

/-- The calls of `Parse` in a trace, each as the line it had before it and the reply it
gave. -/
def calls (t : List (Event M)) : List (Text × Option Reply) :=
  (parses t).map fun p => (lineOf p.1, p.2.2)

/-- The session with `more` bytes appended to its buffer. -/
def pushBytes (c : Session σ τ M) (more : Text) : Session σ τ M :=
  { c with line := c.line ++ more }

/-- Two sessions in the same state of interpreter, buffer and write script, that have made
the same `Parse` calls (line and reply) and the same writes. -/
def Sim (c d : Session σ τ M) : Prop :=
  c.proto = d.proto ∧ c.line = d.line ∧ c.writeErrs = d.writeErrs ∧
    calls c.trace = calls d.trace ∧ writes c.trace = writes d.trace

/-- Two results of the loop: the same returned value, and sessions as in `Sim`. -/
def Sim2 (x y : Option Bool × Session σ τ M) : Prop :=
  x.1 = y.1 ∧ Sim x.2 y.2

/-- The loop of `Read` with fuel for a buffer of this length. -/
def run (P : Protocol σ) (c : Session σ τ M) : Option Bool × Session σ τ M :=
  drain P c.line.length c

/-- What becomes of a result of the loop when `more` bytes come after it: after `true` the
loop runs again on the remainder and the new bytes, after `false` the session is over. -/
def cont (P : Protocol σ) (more : Text) (x : Option Bool × Session σ τ M) :
    Option Bool × Session σ τ M :=
  match x.1 with
  | some true => run P (pushBytes x.2 more)
  | some false => (some false, pushBytes x.2 more)
  | none => (none, x.2)

/-! ## Interpreters and sessions to run the model on -/

/-- The bytes of an ASCII string. -/
def bytes (s : String) : Text := s.toList.map Char.toNat

/-- An interpreter that takes one line per `Parse` call: the line up to the first CRLF goes
to `step` with the state, the rest of the buffer is the remainder. -/
def lineProtocol (greeting : Reply) (step : σ → Text → σ × Option Reply) : Protocol σ where
  Start st := (st, greeting)
  Parse st buf :=
    match splitCRLF buf with
    | none => (st, buf, none)
    | some (l, rest) => ((step st l).1, rest, (step st l).2)

/-- The interpreter takes one line per call: on a buffer whose first CRLF has `l` before it
and `rest` after it, `Parse` consumes `l` and the CRLF, and its new state and its reply
depend on the old state and on `l` only. -/
def IsLineProtocol (P : Protocol σ) : Prop :=
  ∃ step : σ → Text → σ × Option Reply, ∀ st buf l rest, splitCRLF buf = some (l, rest) →
    P.Parse st buf = ((step st l).1, rest, (step st l).2)

/-- A small SMTP interpreter: it counts the commands, answers QUIT with 221, an empty line
with nothing and any other line with 250. -/
def demoStep (n : Nat) (l : Text) : Nat × Option Reply :=
  if l = bytes "QUIT" then (n + 1, some ⟨221, [bytes "221 Bye\r\n"]⟩)
  else if l = [] then (n + 1, none)
  else (n + 1, some ⟨250, [bytes "250-Ok\r\n", bytes "250 Done\r\n"]⟩)

/-- The interpreter of `demoStep`, with a greeting of status 220. -/
def demo : Protocol Nat := lineProtocol ⟨220, [bytes "220 mailhog ESMTP\r\n"]⟩ demoStep

/-- The interpreter `demo` with a greeting of status 221. -/
def bye : Protocol Nat := lineProtocol ⟨221, [bytes "221 Closing\r\n"]⟩ demoStep

/-- An interpreter that keeps to the contract "the remainder is a suffix of the buffer" and
no more: `Parse` consumes nothing and replies nothing. -/
def stuck : Protocol Unit where
  Start st := (st, ⟨220, [bytes "220 stuck\r\n"]⟩)
  Parse st buf := (st, buf, none)

/-- `Parse` makes progress: on a buffer that contains CRLF its remainder is shorter than the
buffer. -/
def Shrinks (P : Protocol σ) : Prop :=
  ∀ st buf, stringsContains buf CRLF = true → (P.Parse st buf).2.1.length < buf.length

/-- A session of `demo` with the given connection, buffer `line` and no past. -/
def demoSession (reads : List ReadResult) (writeErrs : List Bool) (line : Text) :
    Session Nat Unit Nat :=
  { newSession (bytes "10.0.0.7:2525") reads writeErrs () [] (bytes "mailhog.example") 0 with
    line := line }

/-- A message parser: the message is the pair of an id made from the hostname and the raw
capture. -/
def demoData : Data Text (Text × Text) where
  Parse raw hostname := (bytes "id-1@" ++ hostname, raw)
  ID m := m.1

/-- A storage that keeps the messages in a list, gives its own ids, and fails on an empty
capture. -/
def demoStorage : Storage (List (Text × Text)) (Text × Text) where
  Store st m :=
    if m.2 = [] then (st, [], some (bytes "empty message"))
    else (st ++ [m], bytes "db-7", none)

/-- A session for `acceptMessage`, with bytes waiting in its buffer. -/
def storeSession : Session Nat (List (Text × Text)) (Text × Text) :=
  { newSession (bytes "10.0.0.7:2525") [⟨bytes "QUIT\r\n", none⟩] [] [] []
      (bytes "mailhog.example") 0 with line := bytes "RSET" }

/-! ## The effects of `logf`, `Close` and `Write` -/

section Basic

variable (c : Session σ τ M)

@[simp] theorem logf_line (f : String) (a : List LogArg) : (logf c f a).line = c.line := rfl
@[simp] theorem logf_proto (f : String) (a : List LogArg) : (logf c f a).proto = c.proto := rfl
@[simp] theorem logf_reads (f : String) (a : List LogArg) : (logf c f a).reads = c.reads := rfl
@[simp] theorem logf_writeErrs (f : String) (a : List LogArg) :
    (logf c f a).writeErrs = c.writeErrs := rfl
@[simp] theorem logf_remoteAddress (f : String) (a : List LogArg) :
    (logf c f a).remoteAddress = c.remoteAddress := rfl
@[simp] theorem connClose_line : (connClose c).line = c.line := rfl
@[simp] theorem connClose_trace : (connClose c).trace = c.trace ++ [Event.close] := rfl

@[simp] theorem writeLine_line (l : Text) : (writeLine c l).line = c.line := by
  unfold writeLine; simp only []; split <;> rfl
@[simp] theorem writeLine_proto (l : Text) : (writeLine c l).proto = c.proto := by
  unfold writeLine; simp only []; split <;> rfl
@[simp] theorem writeLine_reads (l : Text) : (writeLine c l).reads = c.reads := by
  unfold writeLine; simp only []; split <;> rfl
@[simp] theorem writeLine_remoteAddress (l : Text) :
    (writeLine c l).remoteAddress = c.remoteAddress := by
  unfold writeLine; simp only []; split <;> rfl

/-- One turn of `Write` adds a log line and one write of `l` itself. -/
theorem writeLine_trace (l : Text) : ∃ f a b,
    (writeLine c l).trace = c.trace ++ [Event.log f a, Event.write l b] := by
  unfold writeLine logf; simp only []; split <;> exact ⟨_, _, _, List.append_assoc _ _ _⟩

end Basic

/-- The events of `Write`: no read, no parse call, no close, and the lines of the reply,
each written as it is. -/
theorem Write_trace (reply : Reply) (c : Session σ τ M) : ∃ evs,
    (Write c reply).trace = c.trace ++ evs ∧ readsOf evs = [] ∧ parses evs = [] ∧
      closeCount evs = 0 ∧ (writes evs).map Prod.fst = reply.lines := by
  unfold Write
  generalize reply.lines = ls
  induction ls generalizing c with
  | nil => exact ⟨[], by simp [readsOf, parses, closeCount, writes]⟩
  | cons l ls ih =>
    obtain ⟨f, a, b, h⟩ := writeLine_trace c l
    obtain ⟨evs, h1, h2, h3, h4, h5⟩ := ih (writeLine c l)
    refine ⟨[Event.log f a, Event.write l b] ++ evs, ?_, ?_, ?_, ?_, ?_⟩
    · simp [List.foldl_cons, h1, h]
    · simpa [readsOf] using h2
    · simpa [parses] using h3
    · simpa [closeCount] using h4
    · simpa [writes] using h5

@[simp] theorem Write_line (reply : Reply) (c : Session σ τ M) : (Write c reply).line = c.line := by
  unfold Write
  generalize reply.lines = ls
  induction ls generalizing c with
  | nil => rfl
  | cons l ls ih => simp [List.foldl_cons, ih]

@[simp] theorem Write_proto (reply : Reply) (c : Session σ τ M) :
    (Write c reply).proto = c.proto := by
  unfold Write
  generalize reply.lines = ls
  induction ls generalizing c with
  | nil => rfl
  | cons l ls ih => simp [List.foldl_cons, ih]

@[simp] theorem Write_reads (reply : Reply) (c : Session σ τ M) :
    (Write c reply).reads = c.reads := by
  unfold Write
  generalize reply.lines = ls
  induction ls generalizing c with
  | nil => rfl
  | cons l ls ih => simp [List.foldl_cons, ih]

section Projections

variable (t u : List (Event M))

@[simp] theorem closeCount_append : closeCount (t ++ u) = closeCount t + closeCount u := by
  simp [closeCount]
@[simp] theorem writes_append : writes (t ++ u) = writes t ++ writes u := by simp [writes]
@[simp] theorem parses_append : parses (t ++ u) = parses t ++ parses u := by simp [parses]
@[simp] theorem readsOf_append : readsOf (t ++ u) = readsOf t ++ readsOf u := by simp [readsOf]

end Projections

section Cons

variable (t : List (Event M))

@[simp] theorem closeCount_nil : closeCount ([] : List (Event M)) = 0 := rfl
@[simp] theorem writes_nil : writes ([] : List (Event M)) = [] := rfl
@[simp] theorem parses_nil : parses ([] : List (Event M)) = [] := rfl
@[simp] theorem readsOf_nil : readsOf ([] : List (Event M)) = [] := rfl
@[simp] theorem closeCount_cons_log (f : String) (a : List LogArg) :
    closeCount (Event.log f a :: t) = closeCount t := by simp [closeCount]
@[simp] theorem writes_cons_log (f : String) (a : List LogArg) :
    writes (Event.log f a :: t) = writes t := rfl
@[simp] theorem parses_cons_log (f : String) (a : List LogArg) :
    parses (Event.log f a :: t) = parses t := rfl
@[simp] theorem readsOf_cons_log (f : String) (a : List LogArg) :
    readsOf (Event.log f a :: t) = readsOf t := rfl
@[simp] theorem closeCount_cons_read (d : Text) (e : Option Text) :
    closeCount (Event.read d e :: t) = closeCount t := by simp [closeCount]
@[simp] theorem writes_cons_read (d : Text) (e : Option Text) :
    writes (Event.read d e :: t) = writes t := rfl
@[simp] theorem parses_cons_read (d : Text) (e : Option Text) :
    parses (Event.read d e :: t) = parses t := rfl
@[simp] theorem readsOf_cons_read (d : Text) (e : Option Text) :
    readsOf (Event.read d e :: t) = ⟨d, e⟩ :: readsOf t := rfl
@[simp] theorem closeCount_cons_write (l : Text) (b : Bool) :
    closeCount (Event.write l b :: t) = closeCount t := by simp [closeCount]
@[simp] theorem writes_cons_write (l : Text) (b : Bool) :
    writes (Event.write l b :: t) = (l, b) :: writes t := rfl
@[simp] theorem parses_cons_write (l : Text) (b : Bool) :
    parses (Event.write l b :: t) = parses t := rfl
@[simp] theorem readsOf_cons_write (l : Text) (b : Bool) :
    readsOf (Event.write l b :: t) = readsOf t := rfl
@[simp] theorem closeCount_cons_close  :
    closeCount (Event.close :: t) = closeCount t + 1 := by simp [closeCount]
@[simp] theorem writes_cons_close  :
    writes (Event.close :: t) = writes t := rfl
@[simp] theorem parses_cons_close  :
    parses (Event.close :: t) = parses t := rfl
@[simp] theorem readsOf_cons_close  :
    readsOf (Event.close :: t) = readsOf t := rfl
@[simp] theorem closeCount_cons_parse (i r : Text) (rep : Option Reply) :
    closeCount (Event.parse i r rep :: t) = closeCount t := by simp [closeCount]
@[simp] theorem writes_cons_parse (i r : Text) (rep : Option Reply) :
    writes (Event.parse i r rep :: t) = writes t := rfl
@[simp] theorem parses_cons_parse (i r : Text) (rep : Option Reply) :
    parses (Event.parse i r rep :: t) = (i, r, rep) :: parses t := rfl
@[simp] theorem readsOf_cons_parse (i r : Text) (rep : Option Reply) :
    readsOf (Event.parse i r rep :: t) = readsOf t := rfl
@[simp] theorem closeCount_cons_store (m : M) (i : Text) (e : Option Text) :
    closeCount (Event.store m i e :: t) = closeCount t := by simp [closeCount]
@[simp] theorem writes_cons_store (m : M) (i : Text) (e : Option Text) :
    writes (Event.store m i e :: t) = writes t := rfl
@[simp] theorem parses_cons_store (m : M) (i : Text) (e : Option Text) :
    parses (Event.store m i e :: t) = parses t := rfl
@[simp] theorem readsOf_cons_store (m : M) (i : Text) (e : Option Text) :
    readsOf (Event.store m i e :: t) = readsOf t := rfl
@[simp] theorem closeCount_cons_send (m : M) :
    closeCount (Event.send m :: t) = closeCount t := by simp [closeCount]
@[simp] theorem writes_cons_send (m : M) :
    writes (Event.send m :: t) = writes t := rfl
@[simp] theorem parses_cons_send (m : M) :
    parses (Event.send m :: t) = parses t := rfl
@[simp] theorem readsOf_cons_send (m : M) :
    readsOf (Event.send m :: t) = readsOf t := rfl

end Cons

theorem after221_append_of_none (t u : List (Event M)) (h : after221 t = none) :
    after221 (t ++ u) = after221 u := by
  induction t with
  | nil => rfl
  | cons e t ih =>
    cases e with
    | parse i r rep =>
      cases rep with
      | none => simpa [after221] using ih (by simpa [after221] using h)
      | some rp =>
        by_cases hs : rp.Status = 221
        · simp [after221, hs] at h
        · simp only [after221, hs, if_false, List.cons_append] at h ⊢
          exact ih h
    | _ => simpa [after221] using ih (by simpa [after221] using h)

theorem after221_of_parses_nil (t : List (Event M)) (h : parses t = []) : after221 t = none := by
  induction t with
  | nil => rfl
  | cons e t ih =>
    cases e with
    | parse i r rep => simp [parses] at h
    | _ => simpa [after221] using ih (by simpa [parses] using h)

/-! ## The loop of `Read` -/

theorem drain_noCRLF (P : Protocol σ) (fuel : Nat) (c : Session σ τ M)
    (h : stringsContains c.line CRLF = false) : drain P fuel c = (some true, c) := by
  cases fuel <;> simp [drain, h]

theorem drain_zero (P : Protocol σ) (c : Session σ τ M)
    (h : stringsContains c.line CRLF = true) : drain P 0 c = (none, c) := by
  simp [drain, h]

theorem drain_succ_none (P : Protocol σ) (fuel : Nat) (c : Session σ τ M)
    (h : stringsContains c.line CRLF = true) (hr : (P.Parse c.proto c.line).2.2 = none) :
    drain P (fuel + 1) c = drain P fuel (afterParse P c) := by
  rw [drain, if_pos h]
  simp only [hr, afterParse]

theorem drain_succ_221 (P : Protocol σ) (fuel : Nat) (c : Session σ τ M) (r : Reply)
    (h : stringsContains c.line CRLF = true) (hr : (P.Parse c.proto c.line).2.2 = some r)
    (hs : r.Status = 221) :
    drain P (fuel + 1) c = (some false, connClose (Write (afterParse P c) r)) := by
  rw [drain, if_pos h]
  simp only [hr, afterParse, hs, if_true]

theorem drain_succ_reply (P : Protocol σ) (fuel : Nat) (c : Session σ τ M) (r : Reply)
    (h : stringsContains c.line CRLF = true) (hr : (P.Parse c.proto c.line).2.2 = some r)
    (hs : r.Status ≠ 221) :
    drain P (fuel + 1) c = drain P fuel (Write (afterParse P c) r) := by
  rw [drain, if_pos h]
  simp only [hr, afterParse, hs, if_false]

theorem getLast_map_getD_cons {α β : Type} (f : α → β) (a : α) (l : List α) (d : β) :
    ((a :: l).getLast?.map f).getD d = (l.getLast?.map f).getD (f a) := by
  cases l with
  | nil => simp
  | cons b l =>
    rw [List.getLast?_cons_cons]
    cases h : (b :: l).getLast? with
    | none => simp at h
    | some x => simp

@[simp] theorem afterParse_trace (P : Protocol σ) (c : Session σ τ M) :
    (afterParse P c).trace = c.trace ++
      [Event.parse c.line (P.Parse c.proto c.line).2.1 (P.Parse c.proto c.line).2.2] := rfl

@[simp] theorem afterParse_line (P : Protocol σ) (c : Session σ τ M) :
    (afterParse P c).line = (P.Parse c.proto c.line).2.1 := rfl

/-- What the loop of `Read` does, whatever the fuel: it reads nothing, it calls `Parse` only on
a buffer that contains CRLF, it writes the lines of the replies `Parse` returned and nothing
else; it closes once, right after the write of a 221 reply, when it ends on `false`, and not
at all otherwise; after `true` the buffer has no CRLF and is the last remainder. -/
theorem drain_trace (P : Protocol σ) (fuel : Nat) (c : Session σ τ M) : ∃ evs,
    (drain P fuel c).2.trace = c.trace ++ evs ∧ readsOf evs = [] ∧
    (∀ p ∈ parses evs, stringsContains p.1 CRLF = true) ∧
    (writes evs).map Prod.fst = replyLines (parses evs) ∧
    ((drain P fuel c).1 = some false →
      ∃ pre i rem r ws, evs = pre ++ Event.parse i rem (some r) :: (ws ++ [Event.close]) ∧
        after221 pre = none ∧ closeCount pre = 0 ∧ r.Status = 221 ∧ IsWriteOf r ws) ∧
    ((drain P fuel c).1 ≠ some false → closeCount evs = 0 ∧ after221 evs = none) ∧
    ((drain P fuel c).1 = some true →
      stringsContains (drain P fuel c).2.line CRLF = false ∧
      (drain P fuel c).2.line = ((parses evs).getLast?.map fun p => p.2.1).getD c.line) := by
  induction fuel generalizing c with
  | zero =>
    refine ⟨[], ?_⟩
    by_cases h : stringsContains c.line CRLF = true
    · simp [drain, h, readsOf, parses, writes, replyLines, closeCount, after221]
    · simp [drain, h, readsOf, parses, writes, replyLines, closeCount, after221]
  | succ n ih =>
    by_cases h : stringsContains c.line CRLF = true
    · cases hr : (P.Parse c.proto c.line).2.2 with
      | none =>
        rw [drain_succ_none P n c h hr]
        obtain ⟨evs, h1, h2, h3, h4, h5, h6, h7⟩ := ih (afterParse P c)
        refine ⟨Event.parse c.line (P.Parse c.proto c.line).2.1 none :: evs,
          ?_, ?_, ?_, ?_, ?_, ?_, ?_⟩
        · simp [h1, hr]
        · simpa using h2
        · intro p hp
          simp only [parses_cons_parse, List.mem_cons] at hp
          rcases hp with rfl | hp
          · exact h
          · exact h3 p hp
        · simpa [replyLines] using h4
        · intro hf
          obtain ⟨pre, i, rem, r, ws, e1, e2, e3, e4, e5⟩ := h5 hf
          exact ⟨Event.parse c.line (P.Parse c.proto c.line).2.1 none :: pre, i, rem, r, ws,
            by simp [e1], by simpa [after221] using e2, by simpa using e3, e4, e5⟩
        · intro hf
          obtain ⟨e1, e2⟩ := h6 hf
          exact ⟨by simpa using e1, by simpa [after221] using e2⟩
        · intro ht
          obtain ⟨e1, e2⟩ := h7 ht
          refine ⟨e1, ?_⟩
          rw [e2, parses_cons_parse, getLast_map_getD_cons]
          rfl
      | some r =>
        obtain ⟨ws, w1, w2, w3, w4, w5⟩ := Write_trace r (afterParse P c)
        by_cases hs : r.Status = 221
        · rw [drain_succ_221 P n c r h hr hs]
          refine ⟨Event.parse c.line (P.Parse c.proto c.line).2.1 (some r) ::
            (ws ++ [Event.close]), ?_, ?_, ?_, ?_, ?_, ?_, ?_⟩
          · simp [w1, hr]
          · simp [w2]
          · intro p hp
            simp only [parses_cons_parse, parses_append, w3, parses_cons_close, parses_nil,
              List.append_nil, List.mem_singleton] at hp
            rw [hp]; exact h
          · simp [replyLines, w5, w3]
          · intro _
            exact ⟨[], c.line, _, r, ws, rfl, rfl, rfl, hs, w5, w2, w3, w4⟩
          · intro hf; exact absurd rfl hf
          · intro ht; simp at ht
        · rw [drain_succ_reply P n c r h hr hs]
          obtain ⟨evs, h1, h2, h3, h4, h5, h6, h7⟩ := ih (Write (afterParse P c) r)
          refine ⟨Event.parse c.line (P.Parse c.proto c.line).2.1 (some r) :: (ws ++ evs),
            ?_, ?_, ?_, ?_, ?_, ?_, ?_⟩
          · simp [h1, w1, hr]
          · simp [w2, h2]
          · intro p hp
            simp only [parses_cons_parse, parses_append, w3, List.nil_append,
              List.mem_cons] at hp
            rcases hp with rfl | hp
            · exact h
            · exact h3 p hp
          · simp [replyLines, w5, w3, h4]
          · intro hf
            obtain ⟨pre, i, rem, r', ws', e1, e2, e3, e4, e5⟩ := h5 hf
            refine ⟨Event.parse c.line (P.Parse c.proto c.line).2.1 (some r) :: (ws ++ pre),
              i, rem, r', ws', by simp [e1], ?_, by simp [w4, e3], e4, e5⟩
            simp only [after221, hs, if_false]
            rw [after221_append_of_none _ _ (after221_of_parses_nil ws w3)]
            exact e2
          · intro hf
            obtain ⟨e1, e2⟩ := h6 hf
            refine ⟨by simp [w4, e1], ?_⟩
            simp only [after221, hs, if_false]
            rw [after221_append_of_none _ _ (after221_of_parses_nil ws w3)]
            exact e2
          · intro ht
            obtain ⟨e1, e2⟩ := h7 ht
            refine ⟨e1, ?_⟩
            rw [e2, parses_cons_parse, parses_append, w3, List.nil_append,
              getLast_map_getD_cons]
            simp
    · refine ⟨[], ?_⟩
      simp [drain, h, readsOf, parses, writes, replyLines, closeCount, after221]

/-! ## `Read` -/

theorem Read_zero (P : Protocol σ) (fuel : Nat) (c : Session σ τ M)
    (h : (connRead c).1.data = []) :
    Read P fuel c =
      (some false, connClose (logf (connRead c).2 "Connection closed by remote host\n" [])) := by
  simp [Read, h]

theorem Read_err (P : Protocol σ) (fuel : Nat) (c : Session σ τ M) (e : Text)
    (h : (connRead c).1.data ≠ []) (he : (connRead c).1.err = some e) :
    Read P fuel c =
      (some false, logf (connRead c).2 "Error reading from socket: %s\n" [LogArg.str e]) := by
  simp [Read, h, he]

theorem Read_data (P : Protocol σ) (fuel : Nat) (c : Session σ τ M)
    (h : (connRead c).1.data ≠ []) (he : (connRead c).1.err = none) :
    Read P fuel c = drain P fuel (afterRead c) := by
  simp only [Read, List.length_eq_zero, h, if_false, he]
  rfl

theorem connRead_trace (c : Session σ τ M) :
    (connRead c).2.trace = c.trace ++ [Event.read (connRead c).1.data (connRead c).1.err] := by
  unfold connRead; split <;> rfl

@[simp] theorem connRead_line (c : Session σ τ M) : (connRead c).2.line = c.line := by
  unfold connRead; split <;> rfl

@[simp] theorem connRead_remoteAddress (c : Session σ τ M) :
    (connRead c).2.remoteAddress = c.remoteAddress := by
  unfold connRead; split <;> rfl

theorem afterRead_trace (c : Session σ τ M) : ∃ f a,
    (afterRead c).trace =
      c.trace ++ [Event.read (connRead c).1.data (connRead c).1.err, Event.log f a] := by
  have h : (afterRead c).trace = (connRead c).2.trace ++ [Event.log _ _] := rfl
  rw [connRead_trace] at h
  exact ⟨_, _, by rw [h, List.append_assoc]; rfl⟩

theorem afterRead_line (c : Session σ τ M) :
    (afterRead c).line = c.line ++ (connRead c).1.data := by
  simp [afterRead]

/-- What one `Read` does, whatever the fuel: one read on the connection, first; `Parse` only
on a buffer with CRLF; the writes are the lines of the replies of `Parse`; when it returns
false it ends in one of three ways: a read of zero bytes (one close, no `Parse`), a read
error with bytes (no close, no `Parse`), or a 221 reply, written and followed by the close. -/
theorem Read_trace (P : Protocol σ) (fuel : Nat) (c : Session σ τ M) : ∃ evs,
    (Read P fuel c).2.trace =
      c.trace ++ Event.read (connRead c).1.data (connRead c).1.err :: evs ∧
    readsOf evs = [] ∧
    (∀ p ∈ parses evs, stringsContains p.1 CRLF = true) ∧
    (writes evs).map Prod.fst = replyLines (parses evs) ∧
    ((Read P fuel c).1 = some false →
      ((connRead c).1.data = [] ∧ closeCount evs = 1 ∧ parses evs = []) ∨
      ((connRead c).1.data ≠ [] ∧ (connRead c).1.err ≠ none ∧ closeCount evs = 0 ∧
        parses evs = []) ∨
      ((connRead c).1.data ≠ [] ∧ (connRead c).1.err = none ∧
        ∃ pre i rem r ws, evs = pre ++ Event.parse i rem (some r) :: (ws ++ [Event.close]) ∧
          after221 pre = none ∧ closeCount pre = 0 ∧ r.Status = 221 ∧ IsWriteOf r ws)) ∧
    ((Read P fuel c).1 ≠ some false → closeCount evs = 0 ∧ after221 evs = none) ∧
    ((Read P fuel c).1 = some true →
      stringsContains (Read P fuel c).2.line CRLF = false ∧
      (Read P fuel c).2.line =
        ((parses evs).getLast?.map fun p => p.2.1).getD (c.line ++ (connRead c).1.data)) := by
  by_cases h : (connRead c).1.data = []
  · rw [Read_zero P fuel c h]
    refine ⟨[Event.log ("[SMTP %s]" ++ " " ++ "Connection closed by remote host\n")
      [LogArg.str (connRead c).2.remoteAddress], Event.close], ?_, ?_⟩
    · simp only [connClose_trace, logf, connRead_trace, List.append_assoc]
      rfl
    · simp [replyLines, h]
  · cases he : (connRead c).1.err with
    | some e =>
      rw [Read_err P fuel c e h he]
      refine ⟨[Event.log ("[SMTP %s]" ++ " " ++ "Error reading from socket: %s\n")
        [LogArg.str (connRead c).2.remoteAddress, LogArg.str e]], ?_, ?_⟩
      · simp only [logf, connRead_trace, List.append_assoc, he]
        rfl
      · simp [replyLines, h, after221]
    | none =>
      rw [Read_data P fuel c h he]
      obtain ⟨evs, h1, h2, h3, h4, h5, h6, h7⟩ := drain_trace P fuel (afterRead c)
      obtain ⟨f, a, hf⟩ := afterRead_trace c
      refine ⟨Event.log f a :: evs, ?_, ?_, ?_, ?_, ?_, ?_, ?_⟩
      · rw [h1, hf, he]; simp
      · simpa using h2
      · simpa using h3
      · simpa using h4
      · intro hfalse
        obtain ⟨pre, i, rem, r, ws, e1, e2, e3, e4, e5⟩ := h5 hfalse
        refine Or.inr (Or.inr ⟨h, rfl, Event.log f a :: pre, i, rem, r, ws, by simp [e1],
          by simpa [after221] using e2, by simpa using e3, e4, e5⟩)
      · intro hne
        obtain ⟨e1, e2⟩ := h6 hne
        exact ⟨by simpa using e1, by simpa [after221] using e2⟩
      · intro ht
        obtain ⟨e1, e2⟩ := h7 ht
        refine ⟨e1, ?_⟩
        rw [e2, afterRead_line]
        simp

/-! ## The loop of `Accept` -/

theorem readLoop_succ (P : Protocol σ) (fuel n : Nat) (c : Session σ τ M) :
    readLoop P fuel (n + 1) c =
      match (Read P fuel c).1 with
      | some true => readLoop P fuel n (Read P fuel c).2
      | some false => (some (), (Read P fuel c).2)
      | none => (none, (Read P fuel c).2) := by
  rw [readLoop]
  rcases hR : Read P fuel c with ⟨_ | _ | _, c1⟩ <;> rfl

theorem after221_found (pre rest : List (Event M)) (i rem : Text) (r : Reply)
    (hpre : after221 pre = none) (hs : r.Status = 221) :
    after221 (pre ++ Event.parse i rem (some r) :: rest) = some (r, rest) := by
  rw [after221_append_of_none _ _ hpre]
  simp [after221, hs]

/-- What the loop of `Accept` does, whatever the fuel and the number of turns: `Parse` only
on a buffer with CRLF; the writes are the lines of the replies of `Parse`, in order; after
the first 221 reply of `Parse` come the writes of its lines, the close, and nothing more;
while the loop runs nothing is closed; when it ends, the last read tells how: a read error
with bytes leaves the connection open, a read of zero bytes or a 221 reply closes it once. -/
theorem readLoop_trace (P : Protocol σ) (fuel n : Nat) (c : Session σ τ M) : ∃ evs,
    (readLoop P fuel n c).2.trace = c.trace ++ evs ∧
    (∀ p ∈ parses evs, stringsContains p.1 CRLF = true) ∧
    (writes evs).map Prod.fst = replyLines (parses evs) ∧
    (∀ r post, after221 evs = some (r, post) →
      r.Status = 221 ∧ ∃ ws, post = ws ++ [Event.close] ∧ IsWriteOf r ws) ∧
    ((readLoop P fuel n c).1 = none → closeCount evs = 0 ∧ after221 evs = none) ∧
    ((readLoop P fuel n c).1 = some () → ∃ last, (readsOf evs).getLast? = some last ∧
      closeCount evs = if last.data ≠ [] ∧ last.err ≠ none then 0 else 1) := by
  induction n generalizing c with
  | zero => exact ⟨[], by simp [readLoop, replyLines, after221]⟩
  | succ n ih =>
    obtain ⟨evs, h1, h2, h3, h4, h5, h6, h7⟩ := Read_trace P fuel c
    rw [readLoop_succ]
    rcases hR : (Read P fuel c).1 with _ | _ | _
    · -- the fuel ended in the loop of `Read`
      obtain ⟨e1, e2⟩ := h6 (by simp [hR])
      refine ⟨Event.read (connRead c).1.data (connRead c).1.err :: evs, h1, by simpa using h3,
        by simpa using h4, ?_, ?_, ?_⟩
      · intro r post hp
        simp [after221, e2] at hp
      · intro _
        exact ⟨by simpa using e1, by simpa [after221] using e2⟩
      · intro hf; simp at hf
    · -- `Read` returned false
      refine ⟨Event.read (connRead c).1.data (connRead c).1.err :: evs, h1, by simpa using h3,
        by simpa using h4, ?_, ?_, ?_⟩
      · intro r post hp
        rcases h5 hR with ⟨_, _, e3⟩ | ⟨_, _, _, e3⟩ | ⟨_, _, pre, i, rem, r', ws, e1, e2, e3, e4, e5⟩
        · simp [after221, after221_of_parses_nil evs e3] at hp
        · simp [after221, after221_of_parses_nil evs e3] at hp
        · rw [e1] at hp
          simp only [after221] at hp
          rw [after221_found pre _ i rem r' e2 e4] at hp
          simp only [Option.some.injEq, Prod.mk.injEq] at hp
          obtain ⟨rfl, rfl⟩ := hp
          exact ⟨e4, ws, rfl, e5⟩
      · intro hf; simp at hf
      · intro _
        refine ⟨(connRead c).1, by simp [h2], ?_⟩
        rcases h5 hR with ⟨e1, e2, _⟩ | ⟨e1, e2, e3, _⟩ | ⟨e0, e00, pre, i, rem, r', ws, e1, e2, e3, e4, e5⟩
        · simp [e1, e2]
        · simp [e1, e2, e3]
        · obtain ⟨_, _, _, e6⟩ := e5
          simp [e1, e00, e3, e6]
    · -- `Read` returned true: the loop goes on
      obtain ⟨e1, e2⟩ := h6 (by simp [hR])
      obtain ⟨evs', g1, g2, g3, g4, g5, g6⟩ := ih (Read P fuel c).2
      have ha : after221 (Event.read (connRead c).1.data (connRead c).1.err :: (evs ++ evs')) =
          after221 evs' := by
        simp only [after221]
        exact after221_append_of_none _ _ e2
      refine ⟨Event.read (connRead c).1.data (connRead c).1.err :: (evs ++ evs'), ?_, ?_, ?_,
        ?_, ?_, ?_⟩
      · simp only []
        rw [g1, h1]; simp
      · intro p hp
        simp only [parses_cons_read, parses_append, List.mem_append] at hp
        rcases hp with hp | hp
        · exact h3 p hp
        · exact g2 p hp
      · simp only [writes_cons_read, writes_append, List.map_append, h4, g3, parses_cons_read,
          parses_append]
        simp [replyLines]
      · intro r post hp
        rw [ha] at hp
        exact g4 r post hp
      · intro hn
        obtain ⟨f1, f2⟩ := g5 hn
        exact ⟨by simp [e1, f1], by rw [ha]; exact f2⟩
      · intro hs
        obtain ⟨last, f1, f2⟩ := g6 hs
        refine ⟨last, ?_, ?_⟩
        · simp only [readsOf_cons_read, readsOf_append, h2, List.nil_append]
          cases hl : readsOf evs' with
          | nil => simp [hl] at f1
          | cons a l => rw [List.getLast?_cons_cons, ← hl]; exact f1
        · simp [e1, f2]

/-! ## `Accept` -/

section AcceptRun

variable (P : Protocol σ) (fuel : Nat) (remoteAddress : Text) (reads : List ReadResult)
  (writeErrs : List Bool) (storage : τ) (messageChan : List M) (hostname : Text) (p0 : σ)

theorem Accept_eq :
    Accept P fuel remoteAddress reads writeErrs storage messageChan hostname p0 =
      match (readLoop P fuel fuel
          (greeted P remoteAddress reads writeErrs storage messageChan hostname p0)).1 with
      | some () => (some (), connClose (logf (readLoop P fuel fuel
          (greeted P remoteAddress reads writeErrs storage messageChan hostname p0)).2
          "Session ended" []))
      | none => (none, (readLoop P fuel fuel
          (greeted P remoteAddress reads writeErrs storage messageChan hostname p0)).2) := by
  unfold Accept
  simp only []
  rw [show Write _ _ = greeted P remoteAddress reads writeErrs storage messageChan hostname p0
    from rfl]
  rcases readLoop P fuel fuel
    (greeted P remoteAddress reads writeErrs storage messageChan hostname p0) with ⟨_ | _, c⟩ <;> rfl

theorem greeted_trace : ∃ f a gws,
    (greeted P remoteAddress reads writeErrs storage messageChan hostname p0).trace =
      Event.log f a :: gws ∧ IsWriteOf (P.Start p0).2 gws := by
  obtain ⟨gws, h1, h2, h3, h4, h5⟩ := Write_trace (P.Start p0).2
    ({ logf (newSession remoteAddress reads writeErrs storage messageChan hostname p0)
        "Starting session" [] with proto := (P.Start p0).1 } : Session σ τ M)
  exact ⟨_, _, gws, h1, h5, h2, h3, h4⟩

/-- The trace of a run of `Accept`, whatever the fuel: the first log line, the writes of the
greeting, the events of the loop, and, when `Accept` returns, the last log line and the
deferred close. -/
theorem Accept_trace : ∃ f a gws evs tail,
    (Accept P fuel remoteAddress reads writeErrs storage messageChan hostname p0).2.trace =
      Event.log f a :: (gws ++ (evs ++ tail)) ∧
    IsWriteOf (P.Start p0).2 gws ∧
    (∀ p ∈ parses evs, stringsContains p.1 CRLF = true) ∧
    (writes evs).map Prod.fst = replyLines (parses evs) ∧
    (∀ r post, after221 evs = some (r, post) →
      r.Status = 221 ∧ ∃ ws, post = ws ++ [Event.close] ∧ IsWriteOf r ws) ∧
    ((Accept P fuel remoteAddress reads writeErrs storage messageChan hostname p0).1 = none →
      tail = [] ∧ closeCount evs = 0) ∧
    ((Accept P fuel remoteAddress reads writeErrs storage messageChan hostname p0).1 = some () →
      (∃ g b, tail = [Event.log g b, Event.close]) ∧
      ∃ last, (readsOf evs).getLast? = some last ∧
        closeCount evs = if last.data ≠ [] ∧ last.err ≠ none then 0 else 1) := by
  obtain ⟨f, a, gws, hg, hw⟩ :=
    greeted_trace P remoteAddress reads writeErrs storage messageChan hostname p0
  obtain ⟨evs, h1, h2, h3, h4, h5, h6⟩ := readLoop_trace P fuel fuel
    (greeted P remoteAddress reads writeErrs storage messageChan hostname p0)
  rw [Accept_eq]
  rcases hR : (readLoop P fuel fuel
    (greeted P remoteAddress reads writeErrs storage messageChan hostname p0)).1 with _ | _
  · refine ⟨f, a, gws, evs, [], ?_, hw, h2, h3, h4, ?_, ?_⟩
    · simp only []
      rw [h1, hg]; simp
    · intro _; exact ⟨rfl, (h5 hR).1⟩
    · intro hf; simp at hf
  · refine ⟨f, a, gws, evs, [Event.log ("[SMTP %s]" ++ " " ++ "Session ended")
      [LogArg.str (readLoop P fuel fuel (greeted P remoteAddress reads writeErrs storage
        messageChan hostname p0)).2.remoteAddress], Event.close], ?_, hw, h2, h3, h4, ?_, ?_⟩
    · simp only [connClose_trace, logf]
      rw [h1, hg]; simp
    · intro hf; simp at hf
    · intro _; exact ⟨⟨_, _, rfl⟩, h6 hR⟩

theorem after221_append_of_some (t u post : List (Event M)) (r : Reply)
    (h : after221 t = some (r, post)) : after221 (t ++ u) = some (r, post ++ u) := by
  induction t with
  | nil => simp [after221] at h
  | cons e t ih =>
    cases e with
    | parse i rm rep =>
      cases rep with
      | none => simpa [after221] using ih (by simpa [after221] using h)
      | some rp =>
        by_cases hs : rp.Status = 221
        · simp only [after221, hs, if_true, Option.some.injEq, Prod.mk.injEq] at h
          obtain ⟨rfl, rfl⟩ := h
          simp [after221, hs]
        · simp only [after221, hs, if_false, List.cons_append] at h ⊢
          exact ih h
    | _ => simpa [after221] using ih (by simpa [after221] using h)

/-- After the first 221 reply of `Parse`, in a run of `Accept`: the writes of its lines, the
close, and then no read, no call of `Parse`, no write. -/
theorem Accept_after221 (r : Reply) (post : List (Event M))
    (h : after221 (Accept P fuel remoteAddress reads writeErrs storage messageChan hostname
      p0).2.trace = some (r, post)) :
    r.Status = 221 ∧ ∃ ws tail, post = ws ++ Event.close :: tail ∧ IsWriteOf r ws ∧
      readsOf tail = [] ∧ parses tail = [] ∧ writes tail = [] := by
  obtain ⟨f, a, gws, evs, tail, h1, ⟨_, _, g3, _⟩, _, _, h5, h6, h7⟩ :=
    Accept_trace P fuel remoteAddress reads writeErrs storage messageChan hostname p0
  have htail : readsOf tail = [] ∧ parses tail = [] ∧ writes tail = [] := by
    rcases hA : (Accept P fuel remoteAddress reads writeErrs storage messageChan hostname
      p0).1 with _ | _
    · rw [(h6 hA).1]; simp
    · obtain ⟨⟨g, b, rfl⟩, _⟩ := h7 hA
      simp
  rw [h1] at h
  simp only [after221] at h
  rw [after221_append_of_none _ _ (after221_of_parses_nil gws g3)] at h
  cases he : after221 evs with
  | none =>
    rw [after221_append_of_none _ _ he, after221_of_parses_nil tail htail.2.1] at h
    simp at h
  | some x =>
    obtain ⟨r', post'⟩ := x
    rw [after221_append_of_some _ _ _ _ he] at h
    simp only [Option.some.injEq, Prod.mk.injEq] at h
    obtain ⟨rfl, rfl⟩ := h
    obtain ⟨hs, ws, rfl, hw⟩ := h5 r' post' he
    exact ⟨hs, ws, tail, by simp, hw, htail⟩

theorem written_eq_of_no_failure (t : List (Event M)) (h : ∀ w ∈ writes t, w.2 = false) :
    written t = ((writes t).map Prod.fst).flatten := by
  unfold written
  rw [List.filter_eq_self.mpr (fun w hw => by simp [h w hw])]
  generalize writes t = ws
  induction ws with
  | nil => rfl
  | cons w ws ih => simp [List.flatMap_cons, ih]

end AcceptRun

/-! ## `acceptMessage` -/

/-! ## Termination of the loop of `Read` -/

theorem drain_terminates (P : Protocol σ) (hP : Shrinks P) (fuel : Nat) (c : Session σ τ M)
    (hf : c.line.length ≤ fuel) :
    (drain P fuel c).1 ≠ none ∧
    (parses (drain P fuel c).2.trace).length ≤ (parses c.trace).length + c.line.length := by
  induction fuel generalizing c with
  | zero =>
    have hl : c.line = [] := List.length_eq_zero.mp (Nat.le_zero.mp hf)
    have hc : stringsContains c.line CRLF = false := by rw [hl]; decide
    rw [drain_noCRLF P 0 c hc]
    simp
  | succ n ih =>
    by_cases h : stringsContains c.line CRLF = true
    · have hlt := hP c.proto c.line h
      cases hr : (P.Parse c.proto c.line).2.2 with
      | none =>
        rw [drain_succ_none P n c h hr]
        obtain ⟨e1, e2⟩ := ih (afterParse P c) (by simp only [afterParse_line]; omega)
        refine ⟨e1, ?_⟩
        simp only [afterParse_trace, parses_append, List.length_append, afterParse_line,
          parses_cons_parse, parses_nil, List.length_singleton] at e2
        omega
      | some r =>
        obtain ⟨ws, w1, _, w3, _, _⟩ := Write_trace r (afterParse P c)
        by_cases hs : r.Status = 221
        · rw [drain_succ_221 P n c r h hr hs]
          refine ⟨by simp, ?_⟩
          simp only [connClose_trace, w1, afterParse_trace, parses_append, w3,
            parses_cons_parse, parses_cons_close, parses_nil, List.length_append,
            List.length_singleton, List.length_nil]
          omega
        · rw [drain_succ_reply P n c r h hr hs]
          obtain ⟨e1, e2⟩ := ih (Write (afterParse P c) r)
            (by simp only [Write_line, afterParse_line]; omega)
          refine ⟨e1, ?_⟩
          simp only [w1, afterParse_trace, parses_append, w3, parses_cons_parse, parses_nil,
            List.length_append, List.length_singleton, List.length_nil, Write_line,
            afterParse_line] at e2
          omega
    · rw [drain_noCRLF P (n + 1) c (by simpa using h)]
      simp

/-- With a `Parse` that makes progress, the loop of `Read` gives the same result for every
fuel that is at least the length of the buffer. -/
theorem drain_fuel (P : Protocol σ) (hP : Shrinks P) (f f' : Nat) (c : Session σ τ M)
    (hf : c.line.length ≤ f) (hf' : c.line.length ≤ f') : drain P f c = drain P f' c := by
  induction f generalizing f' c with
  | zero =>
    have hl : c.line = [] := List.length_eq_zero.mp (Nat.le_zero.mp hf)
    have hc : stringsContains c.line CRLF = false := by rw [hl]; decide
    rw [drain_noCRLF P 0 c hc, drain_noCRLF P f' c hc]
  | succ n ih =>
    by_cases h : stringsContains c.line CRLF = true
    · have hlt := hP c.proto c.line h
      obtain ⟨m, rfl⟩ : ∃ m, f' = m + 1 := ⟨f' - 1, by omega⟩
      cases hr : (P.Parse c.proto c.line).2.2 with
      | none =>
        rw [drain_succ_none P n c h hr, drain_succ_none P m c h hr]
        exact ih m (afterParse P c) (by simp only [afterParse_line]; omega)
          (by simp only [afterParse_line]; omega)
      | some r =>
        by_cases hs : r.Status = 221
        · rw [drain_succ_221 P n c r h hr hs, drain_succ_221 P m c r h hr hs]
        · rw [drain_succ_reply P n c r h hr hs, drain_succ_reply P m c r h hr hs]
          exact ih m (Write (afterParse P c) r)
            (by simp only [Write_line, afterParse_line]; omega)
            (by simp only [Write_line, afterParse_line]; omega)
    · have hc : stringsContains c.line CRLF = false := by simpa using h
      rw [drain_noCRLF P (n + 1) c hc, drain_noCRLF P f' c hc]

theorem drain_stuck (fuel : Nat) (c : Session Unit τ M)
    (h : stringsContains c.line CRLF = true) :
    (drain stuck fuel c).1 = none ∧ (drain stuck fuel c).2.line = c.line ∧
    (parses (drain stuck fuel c).2.trace).length = (parses c.trace).length + fuel := by
  induction fuel generalizing c with
  | zero => rw [drain_zero stuck c h]; simp
  | succ n ih =>
    rw [drain_succ_none stuck n c h rfl]
    obtain ⟨e1, e2, e3⟩ := ih (afterParse stuck c) (by simpa [afterParse, stuck] using h)
    refine ⟨e1, e2, ?_⟩
    rw [e3]
    simp only [afterParse_trace, parses_append, parses_cons_parse, parses_nil,
      List.length_append, List.length_singleton]
    omega

/-! ## Buffers and their first line -/

theorem isPrefixOf_CRLF_iff (l : Text) :
    CRLF.isPrefixOf l = true ↔ ∃ t, l = 13 :: 10 :: t := by
  rw [List.isPrefixOf_iff_prefix]
  constructor
  · rintro ⟨t, rfl⟩; exact ⟨t, rfl⟩
  · rintro ⟨t, rfl⟩; exact ⟨t, rfl⟩

theorem splitCRLF_isSome (buf : Text) :
    (splitCRLF buf).isSome = stringsContains buf CRLF := by
  induction buf with
  | nil => rfl
  | cons b s ih =>
    rw [splitCRLF, stringsContains]
    by_cases h : CRLF.isPrefixOf (b :: s) = true
    · simp [h]
    · simp [h, ih]

theorem splitCRLF_of_contains (buf : Text) (h : stringsContains buf CRLF = true) :
    ∃ l rest, splitCRLF buf = some (l, rest) := by
  rw [← splitCRLF_isSome, Option.isSome_iff_exists] at h
  obtain ⟨⟨l, rest⟩, h⟩ := h
  exact ⟨l, rest, h⟩

theorem contains_of_splitCRLF (buf l rest : Text) (h : splitCRLF buf = some (l, rest)) :
    stringsContains buf CRLF = true := by
  rw [← splitCRLF_isSome, h]; rfl

theorem splitCRLF_eq (buf l rest : Text) (h : splitCRLF buf = some (l, rest)) :
    buf = l ++ 13 :: 10 :: rest := by
  induction buf generalizing l with
  | nil => simp [splitCRLF] at h
  | cons b s ih =>
    rw [splitCRLF] at h
    by_cases hp : CRLF.isPrefixOf (b :: s) = true
    · obtain ⟨t, ht⟩ := (isPrefixOf_CRLF_iff _).mp hp
      simp only [hp, if_true, Option.some.injEq, Prod.mk.injEq] at h
      obtain ⟨rfl, rfl⟩ := h
      simp only [List.cons.injEq] at ht
      obtain ⟨rfl, rfl⟩ := ht
      simp
    · simp only [hp, Bool.false_eq_true, if_false, Option.map_eq_some', Prod.mk.injEq,
        Prod.exists] at h
      obtain ⟨l', rest', h1, rfl, rfl⟩ := h
      rw [List.cons_append, ← ih l' h1]

theorem splitCRLF_append (buf l rest more : Text) (h : splitCRLF buf = some (l, rest)) :
    splitCRLF (buf ++ more) = some (l, rest ++ more) := by
  induction buf generalizing l with
  | nil => simp [splitCRLF] at h
  | cons b s ih =>
    rw [splitCRLF] at h
    rw [List.cons_append, splitCRLF]
    by_cases hp : CRLF.isPrefixOf (b :: s) = true
    · obtain ⟨t, ht⟩ := (isPrefixOf_CRLF_iff _).mp hp
      simp only [hp, if_true, Option.some.injEq, Prod.mk.injEq] at h
      obtain ⟨rfl, rfl⟩ := h
      simp only [List.cons.injEq] at ht
      obtain ⟨rfl, rfl⟩ := ht
      have hp' : CRLF.isPrefixOf (13 :: (10 :: t ++ more)) = true :=
        (isPrefixOf_CRLF_iff _).mpr ⟨t ++ more, rfl⟩
      rw [if_pos hp']
      rfl
    · simp only [hp, Bool.false_eq_true, if_false, Option.map_eq_some', Prod.mk.injEq,
        Prod.exists] at h
      obtain ⟨l', rest', h1, rfl, rfl⟩ := h
      have hp' : ¬ CRLF.isPrefixOf (b :: (s ++ more)) = true := by
        intro hc
        obtain ⟨t, ht⟩ := (isPrefixOf_CRLF_iff _).mp hc
        obtain ⟨l2, r2, h2⟩ := splitCRLF_of_contains s (contains_of_splitCRLF _ _ _ h1)
        have hs := splitCRLF_eq s l' rest' h1
        apply hp
        cases s with
        | nil => simp [splitCRLF] at h1
        | cons b2 s2 =>
          simp only [List.cons_append, List.cons.injEq] at ht
          obtain ⟨rfl, rfl, _⟩ := ht
          exact (isPrefixOf_CRLF_iff _).mpr ⟨s2, rfl⟩
      rw [if_neg hp', ih l' h1]
      rfl

theorem lineProtocol_isLineProtocol (greeting : Reply) (step : σ → Text → σ × Option Reply) :
    IsLineProtocol (lineProtocol greeting step) :=
  ⟨step, fun st buf l rest h => by simp [lineProtocol, h]⟩

theorem IsLineProtocol.shrinks {P : Protocol σ} (hP : IsLineProtocol P) : Shrinks P := by
  obtain ⟨step, hstep⟩ := hP
  intro st buf h
  obtain ⟨l, rest, hs⟩ := splitCRLF_of_contains buf h
  rw [hstep st buf l rest hs]
  have := congrArg List.length (splitCRLF_eq buf l rest hs)
  simp only [List.length_append, List.length_cons] at this
  simp only []
  omega

/-! ## Failed writes are not looked at -/

@[simp] theorem eraseFailures_append (t u : List (Event M)) :
    eraseFailures (t ++ u) = eraseFailures t ++ eraseFailures u := by
  simp [eraseFailures]

theorem noFailure_logf (c : Session σ τ M) (f : String) (a : List LogArg) :
    noFailure (logf c f a) = logf (noFailure c) f a := by
  simp [noFailure, logf, eraseFailures]

theorem noFailure_connClose (c : Session σ τ M) :
    noFailure (connClose c) = connClose (noFailure c) := by
  simp [noFailure, connClose, eraseFailures]

theorem noFailure_writeLine (c : Session σ τ M) (l : Text) :
    noFailure (writeLine c l) = writeLine (noFailure c) l := by
  unfold writeLine
  simp only [logf]
  split <;> simp [noFailure, eraseFailures]

theorem noFailure_Write (c : Session σ τ M) (r : Reply) :
    noFailure (Write c r) = Write (noFailure c) r := by
  unfold Write
  generalize r.lines = ls
  induction ls generalizing c with
  | nil => rfl
  | cons l ls ih => simp only [List.foldl_cons, ih, noFailure_writeLine]

theorem noFailure_afterParse (P : Protocol σ) (c : Session σ τ M) :
    noFailure (afterParse P c) = afterParse P (noFailure c) := by
  simp [noFailure, afterParse, eraseFailures]

theorem noFailure_connRead (c : Session σ τ M) :
    connRead (noFailure c) = ((connRead c).1, noFailure (connRead c).2) := by
  unfold connRead
  cases h : c.reads with
  | nil => simp [noFailure, h, eraseFailures]
  | cons r rs => simp [noFailure, h, eraseFailures]

theorem noFailure_drain (P : Protocol σ) (fuel : Nat) (c : Session σ τ M) :
    drain P fuel (noFailure c) = ((drain P fuel c).1, noFailure (drain P fuel c).2) := by
  induction fuel generalizing c with
  | zero =>
    by_cases h : stringsContains c.line CRLF = true
    · rw [drain_zero P c h, drain_zero P (noFailure c) h]
    · have hc : stringsContains c.line CRLF = false := by simpa using h
      rw [drain_noCRLF P 0 c hc, drain_noCRLF P 0 (noFailure c) hc]
  | succ n ih =>
    by_cases h : stringsContains c.line CRLF = true
    · cases hr : (P.Parse c.proto c.line).2.2 with
      | none =>
        rw [drain_succ_none P n c h hr, drain_succ_none P n (noFailure c) h hr,
          ← noFailure_afterParse, ih]
      | some r =>
        by_cases hs : r.Status = 221
        · rw [drain_succ_221 P n c r h hr hs, drain_succ_221 P n (noFailure c) r h hr hs,
            ← noFailure_afterParse, ← noFailure_Write, ← noFailure_connClose]
        · rw [drain_succ_reply P n c r h hr hs, drain_succ_reply P n (noFailure c) r h hr hs,
            ← noFailure_afterParse, ← noFailure_Write, ih]
    · have hc : stringsContains c.line CRLF = false := by simpa using h
      rw [drain_noCRLF P (n + 1) c hc, drain_noCRLF P (n + 1) (noFailure c) hc]

theorem noFailure_afterRead (c : Session σ τ M) :
    noFailure (afterRead c) = afterRead (noFailure c) := by
  unfold afterRead
  simp only [noFailure_connRead]
  simp [noFailure, logf, eraseFailures]

theorem noFailure_Read (P : Protocol σ) (fuel : Nat) (c : Session σ τ M) :
    Read P fuel (noFailure c) = ((Read P fuel c).1, noFailure (Read P fuel c).2) := by
  have hd : (connRead (noFailure c)).1 = (connRead c).1 := by rw [noFailure_connRead]
  by_cases h : (connRead c).1.data = []
  · rw [Read_zero P fuel c h, Read_zero P fuel (noFailure c) (by rw [hd]; exact h),
      noFailure_connClose, noFailure_logf, noFailure_connRead]
  · cases he : (connRead c).1.err with
    | some e =>
      rw [Read_err P fuel c e h he,
        Read_err P fuel (noFailure c) e (by rw [hd]; exact h) (by rw [hd]; exact he),
        noFailure_logf, noFailure_connRead]
    | none =>
      rw [Read_data P fuel c h he,
        Read_data P fuel (noFailure c) (by rw [hd]; exact h) (by rw [hd]; exact he),
        ← noFailure_afterRead, noFailure_drain]

theorem noFailure_readLoop (P : Protocol σ) (fuel n : Nat) (c : Session σ τ M) :
    readLoop P fuel n (noFailure c) =
      ((readLoop P fuel n c).1, noFailure (readLoop P fuel n c).2) := by
  induction n generalizing c with
  | zero => rfl
  | succ n ih =>
    rw [readLoop_succ, readLoop_succ, noFailure_Read]
    rcases (Read P fuel c).1 with _ | _ | _
    · rfl
    · rfl
    · exact ih _

theorem noFailure_greeted (P : Protocol σ) (remoteAddress : Text) (reads : List ReadResult)
    (writeErrs : List Bool) (storage : τ) (messageChan : List M) (hostname : Text) (p0 : σ) :
    greeted P remoteAddress reads [] storage messageChan hostname p0 =
      noFailure (greeted P remoteAddress reads writeErrs storage messageChan hostname p0) := by
  unfold greeted
  simp only []
  rw [noFailure_Write]
  rfl

theorem noFailure_Accept (P : Protocol σ) (fuel : Nat) (remoteAddress : Text)
    (reads : List ReadResult) (writeErrs : List Bool) (storage : τ) (messageChan : List M)
    (hostname : Text) (p0 : σ) :
    Accept P fuel remoteAddress reads [] storage messageChan hostname p0 =
      ((Accept P fuel remoteAddress reads writeErrs storage messageChan hostname p0).1,
       noFailure
        (Accept P fuel remoteAddress reads writeErrs storage messageChan hostname p0).2) := by
  rw [Accept_eq, Accept_eq, noFailure_greeted P remoteAddress reads writeErrs, noFailure_readLoop]
  rcases (readLoop P fuel fuel
    (greeted P remoteAddress reads writeErrs storage messageChan hostname p0)).1 with _ | _
  · rfl
  · simp only []
    rw [noFailure_connClose, noFailure_logf]

/-! ## Framing does not depend on the read boundaries -/

@[simp] theorem calls_append (t u : List (Event M)) : calls (t ++ u) = calls t ++ calls u := by
  simp [calls]

theorem sim_refl (c : Session σ τ M) : Sim c c := ⟨rfl, rfl, rfl, rfl, rfl⟩

theorem sim_symm {c d : Session σ τ M} (h : Sim c d) : Sim d c :=
  ⟨h.1.symm, h.2.1.symm, h.2.2.1.symm, h.2.2.2.1.symm, h.2.2.2.2.symm⟩

theorem sim_trans {c d e : Session σ τ M} (h : Sim c d) (g : Sim d e) : Sim c e :=
  ⟨h.1.trans g.1, h.2.1.trans g.2.1, h.2.2.1.trans g.2.2.1, h.2.2.2.1.trans g.2.2.2.1,
    h.2.2.2.2.trans g.2.2.2.2⟩

theorem sim2_refl (x : Option Bool × Session σ τ M) : Sim2 x x := ⟨rfl, sim_refl _⟩

theorem sim2_symm {x y : Option Bool × Session σ τ M} (h : Sim2 x y) : Sim2 y x :=
  ⟨h.1.symm, sim_symm h.2⟩

theorem sim2_trans {x y z : Option Bool × Session σ τ M} (h : Sim2 x y) (g : Sim2 y z) :
    Sim2 x z := ⟨h.1.trans g.1, sim_trans h.2 g.2⟩

theorem writeLine_spec (c : Session σ τ M) (l : Text) :
    (writeLine c l).writeErrs = c.writeErrs.tail ∧
    calls (writeLine c l).trace = calls c.trace ∧
    writes (writeLine c l).trace = writes c.trace ++ [(l, c.writeErrs.headD false)] := by
  unfold writeLine
  simp only [logf]
  split <;> rename_i h <;> simp [h, calls]

theorem sim_writeLine {c d : Session σ τ M} (h : Sim c d) (l : Text) :
    Sim (writeLine c l) (writeLine d l) := by
  obtain ⟨h1, h2, h3, h4, h5⟩ := h
  obtain ⟨a1, a2, a3⟩ := writeLine_spec c l
  obtain ⟨b1, b2, b3⟩ := writeLine_spec d l
  exact ⟨by simpa using h1, by simpa using h2, by rw [a1, b1, h3], by rw [a2, b2, h4],
    by rw [a3, b3, h5, h3]⟩

theorem sim_Write {c d : Session σ τ M} (h : Sim c d) (r : Reply) :
    Sim (Write c r) (Write d r) := by
  unfold Write
  generalize r.lines = ls
  induction ls generalizing c d with
  | nil => exact h
  | cons l ls ih => exact ih (sim_writeLine h l)

theorem sim_connClose {c d : Session σ τ M} (h : Sim c d) : Sim (connClose c) (connClose d) := by
  obtain ⟨h1, h2, h3, h4, h5⟩ := h
  exact ⟨h1, h2, h3, by simpa [calls] using h4, by simpa using h5⟩

theorem sim_afterParse (P : Protocol σ) {c d : Session σ τ M} (h : Sim c d) :
    Sim (afterParse P c) (afterParse P d) := by
  obtain ⟨h1, h2, h3, h4, h5⟩ := h
  refine ⟨?_, ?_, h3, ?_, ?_⟩
  · simp [afterParse, h1, h2]
  · simp [afterParse, h1, h2]
  · simp only [afterParse_trace, calls_append, h4, h1, h2]
  · simp only [afterParse_trace, writes_append, h5, writes_cons_parse, writes_nil]

theorem sim_pushBytes {c d : Session σ τ M} (h : Sim c d) (more : Text) :
    Sim (pushBytes c more) (pushBytes d more) := by
  obtain ⟨h1, h2, h3, h4, h5⟩ := h
  exact ⟨h1, by simp [pushBytes, h2], h3, h4, h5⟩

theorem sim_drain (P : Protocol σ) (fuel : Nat) {c d : Session σ τ M} (h : Sim c d) :
    Sim2 (drain P fuel c) (drain P fuel d) := by
  induction fuel generalizing c d with
  | zero =>
    by_cases hc : stringsContains c.line CRLF = true
    · rw [drain_zero P c hc, drain_zero P d (h.2.1 ▸ hc)]
      exact ⟨rfl, h⟩
    · have hc' : stringsContains c.line CRLF = false := by simpa using hc
      rw [drain_noCRLF P 0 c hc', drain_noCRLF P 0 d (h.2.1 ▸ hc')]
      exact ⟨rfl, h⟩
  | succ n ih =>
    by_cases hc : stringsContains c.line CRLF = true
    · have hd : stringsContains d.line CRLF = true := h.2.1 ▸ hc
      cases hr : (P.Parse c.proto c.line).2.2 with
      | none =>
        have hr' : (P.Parse d.proto d.line).2.2 = none := by rw [← h.1, ← h.2.1]; exact hr
        rw [drain_succ_none P n c hc hr, drain_succ_none P n d hd hr']
        exact ih (sim_afterParse P h)
      | some r =>
        have hr' : (P.Parse d.proto d.line).2.2 = some r := by rw [← h.1, ← h.2.1]; exact hr
        by_cases hs : r.Status = 221
        · rw [drain_succ_221 P n c r hc hr hs, drain_succ_221 P n d r hd hr' hs]
          exact ⟨rfl, sim_connClose (sim_Write (sim_afterParse P h) r)⟩
        · rw [drain_succ_reply P n c r hc hr hs, drain_succ_reply P n d r hd hr' hs]
          exact ih (sim_Write (sim_afterParse P h) r)
    · have hc' : stringsContains c.line CRLF = false := by simpa using hc
      rw [drain_noCRLF P (n + 1) c hc', drain_noCRLF P (n + 1) d (h.2.1 ▸ hc')]
      exact ⟨rfl, h⟩

theorem sim_run (P : Protocol σ) {c d : Session σ τ M} (h : Sim c d) :
    Sim2 (run P c) (run P d) := by
  unfold run
  rw [← h.2.1]
  exact sim_drain P _ h

theorem contains_append (buf more : Text) (h : stringsContains buf CRLF = true) :
    stringsContains (buf ++ more) CRLF = true := by
  obtain ⟨l, rest, hs⟩ := splitCRLF_of_contains buf h
  exact contains_of_splitCRLF _ _ _ (splitCRLF_append buf l rest more hs)

theorem length_pos_of_contains (buf : Text) (h : stringsContains buf CRLF = true) :
    0 < buf.length := by
  cases buf with
  | nil => simp [stringsContains, CRLF] at h
  | cons b s => simp

theorem run_noCRLF (P : Protocol σ) (c : Session σ τ M)
    (h : stringsContains c.line CRLF = false) : run P c = (some true, c) :=
  drain_noCRLF P _ c h

theorem run_none (P : Protocol σ) (hP : Shrinks P) (c : Session σ τ M)
    (h : stringsContains c.line CRLF = true) (hr : (P.Parse c.proto c.line).2.2 = none) :
    run P c = run P (afterParse P c) := by
  have hlt := hP c.proto c.line h
  obtain ⟨k, hk⟩ : ∃ k, c.line.length = k + 1 :=
    ⟨c.line.length - 1, by have := length_pos_of_contains _ h; omega⟩
  unfold run
  rw [hk, drain_succ_none P k c h hr]
  exact drain_fuel P hP _ _ _ (by simp only [afterParse_line]; omega) (Nat.le_refl _)

theorem run_221 (P : Protocol σ) (c : Session σ τ M) (r : Reply)
    (h : stringsContains c.line CRLF = true) (hr : (P.Parse c.proto c.line).2.2 = some r)
    (hs : r.Status = 221) : run P c = (some false, connClose (Write (afterParse P c) r)) := by
  obtain ⟨k, hk⟩ : ∃ k, c.line.length = k + 1 :=
    ⟨c.line.length - 1, by have := length_pos_of_contains _ h; omega⟩
  unfold run
  rw [hk, drain_succ_221 P k c r h hr hs]

theorem run_reply (P : Protocol σ) (hP : Shrinks P) (c : Session σ τ M) (r : Reply)
    (h : stringsContains c.line CRLF = true) (hr : (P.Parse c.proto c.line).2.2 = some r)
    (hs : r.Status ≠ 221) : run P c = run P (Write (afterParse P c) r) := by
  have hlt := hP c.proto c.line h
  obtain ⟨k, hk⟩ : ∃ k, c.line.length = k + 1 :=
    ⟨c.line.length - 1, by have := length_pos_of_contains _ h; omega⟩
  unfold run
  rw [hk, drain_succ_reply P k c r h hr hs]
  exact drain_fuel P hP _ _ _ (by simp only [Write_line, afterParse_line]; omega)
    (Nat.le_refl _)

theorem pushBytes_writeLine (c : Session σ τ M) (more l : Text) :
    writeLine (pushBytes c more) l = pushBytes (writeLine c l) more := by
  unfold writeLine
  simp only [logf, pushBytes]
  split <;> rename_i h <;> simp [h]

theorem pushBytes_Write (c : Session σ τ M) (more : Text) (r : Reply) :
    Write (pushBytes c more) r = pushBytes (Write c r) more := by
  unfold Write
  generalize r.lines = ls
  induction ls generalizing c with
  | nil => rfl
  | cons l ls ih => simp only [List.foldl_cons, pushBytes_writeLine, ih]

theorem afterParse_pushBytes (P : Protocol σ) (hP : IsLineProtocol P) (c : Session σ τ M)
    (more : Text) (h : stringsContains c.line CRLF = true) :
    (P.Parse (pushBytes c more).proto (pushBytes c more).line).2.2 =
      (P.Parse c.proto c.line).2.2 ∧
    Sim (afterParse P (pushBytes c more)) (pushBytes (afterParse P c) more) := by
  obtain ⟨step, hstep⟩ := hP
  obtain ⟨l, rest, hs⟩ := splitCRLF_of_contains c.line h
  have hs' := splitCRLF_append c.line l rest more hs
  have e1 := hstep c.proto c.line l rest hs
  have e2 := hstep c.proto (c.line ++ more) l (rest ++ more) hs'
  refine ⟨?_, ?_, ?_, rfl, ?_, ?_⟩
  · simp only [pushBytes, e1, e2]
  · simp only [afterParse, pushBytes, e1, e2]
  · simp only [afterParse, pushBytes, e1, e2]
  · simp only [afterParse, pushBytes, e1, e2, calls_append]
    simp [calls, lineOf, hs, hs']
  · simp only [afterParse, pushBytes, writes_append, writes_cons_parse, writes_nil]

theorem sim_cont (P : Protocol σ) (more : Text) {x y : Option Bool × Session σ τ M}
    (h : Sim2 x y) : Sim2 (cont P more x) (cont P more y) := by
  obtain ⟨h1, h2⟩ := h
  unfold cont
  rw [← h1]
  rcases x.1 with _ | _ | _
  · exact ⟨rfl, h2⟩
  · exact ⟨rfl, sim_pushBytes h2 more⟩
  · exact sim_run P (sim_pushBytes h2 more)

/-- More bytes behind the buffer: the loop on the longer buffer does what the loop on the
buffer does, and then what it does on the remainder and the new bytes. -/
theorem run_pushBytes (P : Protocol σ) (hP : IsLineProtocol P) (more : Text) (n : Nat)
    (c : Session σ τ M) (hn : c.line.length ≤ n) :
    Sim2 (run P (pushBytes c more)) (cont P more (run P c)) := by
  induction n generalizing c with
  | zero =>
    have hl : c.line = [] := List.length_eq_zero.mp (Nat.le_zero.mp hn)
    have hc : stringsContains c.line CRLF = false := by rw [hl]; decide
    rw [run_noCRLF P c hc]
    exact sim2_refl _
  | succ n ih =>
    by_cases h : stringsContains c.line CRLF = true
    · have hlt := hP.shrinks c.proto c.line h
      have h' : stringsContains (pushBytes c more).line CRLF = true := contains_append _ _ h
      obtain ⟨hrep, hsim⟩ := afterParse_pushBytes P hP c more h
      cases hr : (P.Parse c.proto c.line).2.2 with
      | none =>
        rw [run_none P hP.shrinks c h hr,
          run_none P hP.shrinks (pushBytes c more) h' (hrep.trans hr)]
        exact sim2_trans (sim_run P hsim)
          (ih (afterParse P c) (by simp only [afterParse_line]; omega))
      | some r =>
        by_cases hs : r.Status = 221
        · rw [run_221 P c r h hr hs, run_221 P (pushBytes c more) r h' (hrep.trans hr) hs]
          refine ⟨rfl, ?_⟩
          have := sim_connClose (sim_Write hsim r)
          rw [pushBytes_Write] at this
          exact this
        · rw [run_reply P hP.shrinks c r h hr hs,
            run_reply P hP.shrinks (pushBytes c more) r h' (hrep.trans hr) hs]
          have h1 := sim_run P (sim_Write hsim r)
          rw [pushBytes_Write] at h1
          exact sim2_trans h1 (ih (Write (afterParse P c) r)
            (by simp only [Write_line, afterParse_line]; omega))
    · have hc : stringsContains c.line CRLF = false := by simpa using h
      rw [run_noCRLF P c hc]
      exact sim2_refl _

theorem drain_line_le (P : Protocol σ) (hP : Shrinks P) (fuel : Nat) (c : Session σ τ M) :
    (drain P fuel c).2.line.length ≤ c.line.length := by
  induction fuel generalizing c with
  | zero =>
    by_cases h : stringsContains c.line CRLF = true
    · rw [drain_zero P c h]
    · rw [drain_noCRLF P 0 c (by simpa using h)]
  | succ n ih =>
    by_cases h : stringsContains c.line CRLF = true
    · have hlt := hP c.proto c.line h
      cases hr : (P.Parse c.proto c.line).2.2 with
      | none =>
        rw [drain_succ_none P n c h hr]
        have := ih (afterParse P c)
        simp only [afterParse_line] at this
        omega
      | some r =>
        by_cases hs : r.Status = 221
        · rw [drain_succ_221 P n c r h hr hs]
          simp only [connClose_line, Write_line, afterParse_line]
          omega
        · rw [drain_succ_reply P n c r h hr hs]
          have := ih (Write (afterParse P c) r)
          simp only [Write_line, afterParse_line] at this
          omega
    · rw [drain_noCRLF P (n + 1) c (by simpa using h)]

theorem drain_reads (P : Protocol σ) (fuel : Nat) (c : Session σ τ M) :
    (drain P fuel c).2.reads = c.reads := by
  induction fuel generalizing c with
  | zero =>
    by_cases h : stringsContains c.line CRLF = true
    · rw [drain_zero P c h]
    · rw [drain_noCRLF P 0 c (by simpa using h)]
  | succ n ih =>
    by_cases h : stringsContains c.line CRLF = true
    · cases hr : (P.Parse c.proto c.line).2.2 with
      | none => rw [drain_succ_none P n c h hr, ih]; rfl
      | some r =>
        by_cases hs : r.Status = 221
        · rw [drain_succ_221 P n c r h hr hs]
          show (Write (afterParse P c) r).reads = c.reads
          rw [Write_reads]; rfl
        · rw [drain_succ_reply P n c r h hr hs, ih, Write_reads]; rfl
    · rw [drain_noCRLF P (n + 1) c (by simpa using h)]

/-- A read that brings the bytes `d` without error: `Read` is the loop on the session with
`d` behind its buffer. -/
theorem Read_of_chunk (P : Protocol σ) (hP : Shrinks P) (fuel : Nat) (c : Session σ τ M)
    (d : Text) (rs : List ReadResult) (hr : c.reads = ⟨d, none⟩ :: rs) (hd : d ≠ [])
    (hf : c.line.length + d.length ≤ fuel) :
    Sim2 (Read P fuel c) (run P (pushBytes c d)) ∧ (Read P fuel c).2.reads = rs ∧
    (Read P fuel c).2.line.length ≤ c.line.length + d.length := by
  have h1 : (connRead c).1 = ⟨d, none⟩ := by unfold connRead; rw [hr]
  have h2 : (connRead c).2.reads = rs := by unfold connRead; rw [hr]
  have h3 : (connRead c).2.proto = c.proto := by unfold connRead; rw [hr]
  have h4 : (connRead c).2.writeErrs = c.writeErrs := by unfold connRead; rw [hr]
  have hl : (afterRead c).line = c.line ++ d := by rw [afterRead_line, h1]
  obtain ⟨f, a, ht⟩ := afterRead_trace c
  have hsim : Sim (afterRead c) (pushBytes c d) := by
    refine ⟨?_, ?_, ?_, ?_, ?_⟩
    · show (connRead c).2.proto = c.proto
      exact h3
    · rw [hl]; rfl
    · show (connRead c).2.writeErrs = c.writeErrs
      exact h4
    · rw [ht]; simp [calls, pushBytes]
    · rw [ht]; simp [pushBytes]
  rw [Read_data P fuel c (by rw [h1]; exact hd) (by rw [h1])]
  refine ⟨?_, ?_, ?_⟩
  · rw [drain_fuel P hP fuel (afterRead c).line.length (afterRead c)
      (by rw [hl, List.length_append]; exact hf) (Nat.le_refl _)]
    exact sim_run P hsim
  · rw [drain_reads]
    exact h2
  · have := drain_line_le P hP fuel (afterRead c)
    rw [hl, List.length_append] at this
    exact this

/-- The loop of `Accept` over a script of reads without error, one per chunk, against the
loop of `Read` on the buffer with all the chunks behind it. -/
theorem readLoop_chunks (P : Protocol σ) (hP : IsLineProtocol P) (fuel : Nat)
    (chunks : List Text) (c : Session σ τ M) (hne : ∀ ch ∈ chunks, ch ≠ [])
    (hr : c.reads = chunks.map fun ch => ⟨ch, none⟩)
    (hc : stringsContains c.line CRLF = false)
    (hf : c.line.length + chunks.flatten.length ≤ fuel) :
    (run P (pushBytes c chunks.flatten)).1 ≠ none ∧
    calls (readLoop P fuel chunks.length c).2.trace =
      calls (run P (pushBytes c chunks.flatten)).2.trace ∧
    writes (readLoop P fuel chunks.length c).2.trace =
      writes (run P (pushBytes c chunks.flatten)).2.trace ∧
    ((run P (pushBytes c chunks.flatten)).1 = some true →
      (readLoop P fuel chunks.length c).1 = none ∧
      (readLoop P fuel chunks.length c).2.line = (run P (pushBytes c chunks.flatten)).2.line ∧
      (readLoop P fuel chunks.length c).2.proto =
        (run P (pushBytes c chunks.flatten)).2.proto) ∧
    ((run P (pushBytes c chunks.flatten)).1 = some false →
      (readLoop P fuel chunks.length c).1 = some ()) := by
  induction chunks generalizing c with
  | nil =>
    have hc' : stringsContains (pushBytes c []).line CRLF = false := by
      simpa [pushBytes] using hc
    rw [List.flatten_nil, run_noCRLF P _ hc']
    simp [readLoop, pushBytes]
  | cons ch rest ih =>
    have hch : ch ≠ [] := hne ch (List.mem_cons_self _ _)
    rw [List.flatten_cons, List.length_append] at hf
    obtain ⟨⟨r1, r2⟩, r3, r4⟩ :=
      Read_of_chunk P hP.shrinks fuel c ch _ (by simpa using hr) hch (by omega)
    have hkey := run_pushBytes P hP rest.flatten _ (pushBytes c ch) (Nat.le_refl _)
    rw [show pushBytes (pushBytes c ch) rest.flatten = pushBytes c (ch ++ rest.flatten) by
      simp [pushBytes]] at hkey
    have hterm := (drain_terminates P hP.shrinks _ (pushBytes c ch) (Nat.le_refl _)).1
    rw [List.flatten_cons, List.length_cons, readLoop_succ]
    rcases hy : (run P (pushBytes c ch)).1 with _ | _ | _
    · exact absurd hy hterm
    · -- the session ends in this chunk
      rw [hy] at r1
      have hk : Sim2 (run P (pushBytes c (ch ++ rest.flatten)))
          (some false, pushBytes (run P (pushBytes c ch)).2 rest.flatten) := by
        have := hkey
        unfold cont at this
        rw [hy] at this
        exact this
      obtain ⟨k1, _, _, _, k4, k5⟩ := hk
      have k1' : (run P (pushBytes c (ch ++ rest.flatten))).1 = some false := k1
      have k4' : calls (run P (pushBytes c (ch ++ rest.flatten))).2.trace =
          calls (run P (pushBytes c ch)).2.trace := k4
      have k5' : writes (run P (pushBytes c (ch ++ rest.flatten))).2.trace =
          writes (run P (pushBytes c ch)).2.trace := k5
      rw [r1]
      refine ⟨by rw [k1']; simp, ?_, ?_, ?_, ?_⟩
      · exact r2.2.2.2.1.trans k4'.symm
      · exact r2.2.2.2.2.trans k5'.symm
      · intro h; rw [k1'] at h; simp at h
      · intro _; rfl
    · -- the loop goes on with the next chunk
      rw [hy] at r1
      have hk : Sim2 (run P (pushBytes c (ch ++ rest.flatten)))
          (run P (pushBytes (run P (pushBytes c ch)).2 rest.flatten)) := by
        have := hkey
        unfold cont at this
        rw [hy] at this
        exact this
      have hk' := sim2_trans hk (sim2_symm (sim_run P (sim_pushBytes r2 rest.flatten)))
      have hnoCRLF : stringsContains (Read P fuel c).2.line CRLF = false := by
        obtain ⟨_, _, _, _, _, _, _, h7⟩ := Read_trace P fuel c
        exact (h7 r1).1
      obtain ⟨i1, i2, i3, i4, i5⟩ := ih (Read P fuel c).2
        (fun x hx => hne x (List.mem_cons_of_mem _ hx)) r3 hnoCRLF (by omega)
      obtain ⟨k1, k2, k3, k4, k5, k6⟩ := hk'
      rw [r1]
      simp only []
      refine ⟨by rw [k1]; exact i1, by rw [i2, k5], by rw [i3, k6], ?_, ?_⟩
      · intro h
        obtain ⟨j1, j2, j3⟩ := i4 (by rw [← k1]; exact h)
        exact ⟨j1, by rw [j2, k3], by rw [j3, k2]⟩
      · intro h
        exact i5 (by rw [← k1]; exact h)

/-! ## `Accept` returns -/

/-- With a `Parse` that makes progress, a turn count above the number of reads left in the
script and fuel for all the bytes to come, the loop of `Accept` ends. -/
theorem readLoop_returns (P : Protocol σ) (hP : Shrinks P) (fuel n : Nat) (c : Session σ τ M)
    (hn : c.reads.length < n)
    (hf : c.line.length + (c.reads.map fun r => r.data.length).sum ≤ fuel) :
    (readLoop P fuel n c).1 = some () := by
  induction n generalizing c with
  | zero => omega
  | succ n ih =>
    rw [readLoop_succ]
    cases hr : c.reads with
    | nil =>
      rw [Read_zero P fuel c (by simp [connRead, hr])]
    | cons r rs =>
      have h1 : (connRead c).1 = r := by unfold connRead; rw [hr]
      have h2 : (connRead c).2.reads = rs := by unfold connRead; rw [hr]
      rw [hr] at hn hf
      simp only [List.map_cons, List.sum_cons, List.length_cons] at hn hf
      by_cases hd : r.data = []
      · rw [Read_zero P fuel c (by rw [h1]; exact hd)]
      · cases he : r.err with
        | some e => rw [Read_err P fuel c e (by rw [h1]; exact hd) (by rw [h1]; exact he)]
        | none =>
          have hl : (afterRead c).line = c.line ++ r.data := by rw [afterRead_line, h1]
          have hlen : (afterRead c).line.length ≤ fuel := by
            rw [hl, List.length_append]; omega
          rw [Read_data P fuel c (by rw [h1]; exact hd) (by rw [h1]; exact he)]
          have ht := (drain_terminates P hP fuel (afterRead c) hlen).1
          have hle := drain_line_le P hP fuel (afterRead c)
          have hrd : (drain P fuel (afterRead c)).2.reads = rs := by
            rw [drain_reads]; exact h2
          rcases hx : (drain P fuel (afterRead c)).1 with _ | _ | _
          · exact absurd hx ht
          · rfl
          · simp only []
            apply ih
            · rw [hrd]; omega
            · rw [hrd]
              rw [hl, List.length_append] at hle
              omega

theorem greeted_reads_line (P : Protocol σ) (remoteAddress : Text) (reads : List ReadResult)
    (writeErrs : List Bool) (storage : τ) (messageChan : List M) (hostname : Text) (p0 : σ) :
    (greeted P remoteAddress reads writeErrs storage messageChan hostname p0).reads = reads ∧
    (greeted P remoteAddress reads writeErrs storage messageChan hostname p0).line = [] := by
  unfold greeted
  simp only [Write_reads, Write_line]
  exact ⟨rfl, rfl⟩

/-- With a `Parse` that makes progress and fuel above the number of reads of the connection
and for all their bytes, `Accept` returns. -/
theorem Accept_returns (P : Protocol σ) (hP : Shrinks P) (fuel : Nat) (remoteAddress : Text)
    (reads : List ReadResult) (writeErrs : List Bool) (storage : τ) (messageChan : List M)
    (hostname : Text) (p0 : σ) (hn : reads.length < fuel)
    (hf : (reads.map fun r => r.data.length).sum ≤ fuel) :
    (Accept P fuel remoteAddress reads writeErrs storage messageChan hostname p0).1 =
      some () := by
  obtain ⟨g1, g2⟩ :=
    greeted_reads_line P remoteAddress reads writeErrs storage messageChan hostname p0
  have h := readLoop_returns P hP fuel fuel
    (greeted P remoteAddress reads writeErrs storage messageChan hostname p0)
    (by rw [g1]; exact hn) (by rw [g1, g2]; simpa using hf)
  rw [Accept_eq, h]

/-! ## The claims -/

section Claims

variable (P : Protocol σ) (fuel : Nat) (remoteAddress : Text) (reads : List ReadResult)
  (writeErrs : List Bool) (storage : τ) (messageChan : List M) (hostname : Text) (p0 : σ)

/-- C1, amended. When `Accept` returns, `Close` was called once or twice, never zero times,
and the last call is the last event of the session, the deferred close of `Accept`. The
last read tells the count: once when the loop ended on a read error that came with bytes,
twice when it ended on a read of zero bytes or on a 221 reply of `Parse`, for then `Read`
has closed the connection itself before `Accept` closes it again. And `Accept` does return
when `Parse` makes progress and the fuel is above the number of reads and of their bytes. -/
theorem C1_close_once_or_twice :
    (Shrinks P → reads.length < fuel → (reads.map fun r => r.data.length).sum ≤ fuel →
      (Accept P fuel remoteAddress reads writeErrs storage messageChan hostname p0).1 =
        some ()) ∧
    ((Accept P fuel remoteAddress reads writeErrs storage messageChan hostname p0).1 =
        some () →
      ∃ last,
        (readsOf (Accept P fuel remoteAddress reads writeErrs storage messageChan hostname
          p0).2.trace).getLast? = some last ∧
        closeCount (Accept P fuel remoteAddress reads writeErrs storage messageChan hostname
          p0).2.trace = (if last.data ≠ [] ∧ last.err ≠ none then 1 else 2) ∧
        (Accept P fuel remoteAddress reads writeErrs storage messageChan hostname
          p0).2.trace.getLast? = some Event.close) := by
  refine ⟨fun hP hn hf => Accept_returns P hP fuel remoteAddress reads writeErrs storage
    messageChan hostname p0 hn hf, fun h => ?_⟩
  obtain ⟨f, a, gws, evs, tail, h1, ⟨_, g2, _, g4⟩, _, _, _, _, h7⟩ :=
    Accept_trace P fuel remoteAddress reads writeErrs storage messageChan hostname p0
  obtain ⟨⟨g, b, rfl⟩, last, l1, l2⟩ := h7 h
  refine ⟨last, ?_, ?_, ?_⟩
  · rw [h1]; simp [g2, l1]
  · rw [h1]
    simp only [closeCount_cons_log, closeCount_append, g4, l2, closeCount_cons_close,
      closeCount_nil]
    split <;> rfl
  · rw [h1]
    rw [show Event.log f a :: (gws ++ (evs ++ [Event.log g b, Event.close])) =
      (Event.log f a :: (gws ++ (evs ++ [Event.log g b]))) ++ [Event.close] by simp]
    exact List.getLast?_concat _

/-- C1 as stated fails: the peer sends QUIT, `Parse` answers 221, `Read` closes the
connection and returns false, `Accept` returns and its deferred call closes it again. -/
theorem C1_counterexample_closed_twice :
    (Accept demo 4 (bytes "10.0.0.7:2525") [⟨bytes "QUIT\r\n", none⟩] [] ()
      ([] : List Nat) (bytes "mailhog.example") 0).1 = some () ∧
    closeCount (Accept demo 4 (bytes "10.0.0.7:2525") [⟨bytes "QUIT\r\n", none⟩] [] ()
      ([] : List Nat) (bytes "mailhog.example") 0).2.trace = 2 := by
  decide

/-- C1, amended, at work: a read error that comes with bytes ends the session with one
close. -/
theorem C1_close_once_or_twice_witness :
    (Accept demo 4 (bytes "10.0.0.7:2525") [⟨bytes "NOOP", some (bytes "reset")⟩] [] ()
      ([] : List Nat) (bytes "mailhog.example") 0).1 = some () ∧
    ∃ last,
      (readsOf (Accept demo 4 (bytes "10.0.0.7:2525") [⟨bytes "NOOP", some (bytes "reset")⟩]
        [] () ([] : List Nat) (bytes "mailhog.example") 0).2.trace).getLast? = some last ∧
      closeCount (Accept demo 4 (bytes "10.0.0.7:2525") [⟨bytes "NOOP", some (bytes "reset")⟩]
        [] () ([] : List Nat) (bytes "mailhog.example") 0).2.trace =
          (if last.data ≠ [] ∧ last.err ≠ none then 1 else 2) ∧
      (Accept demo 4 (bytes "10.0.0.7:2525") [⟨bytes "NOOP", some (bytes "reset")⟩]
        [] () ([] : List Nat) (bytes "mailhog.example") 0).2.trace.getLast? =
          some Event.close :=
  ⟨(C1_close_once_or_twice demo 4 (bytes "10.0.0.7:2525")
      [⟨bytes "NOOP", some (bytes "reset")⟩] [] () ([] : List Nat) (bytes "mailhog.example")
      0).1 (lineProtocol_isLineProtocol _ _).shrinks (by decide) (by decide),
    (C1_close_once_or_twice demo 4 (bytes "10.0.0.7:2525")
      [⟨bytes "NOOP", some (bytes "reset")⟩] [] () ([] : List Nat) (bytes "mailhog.example")
      0).2 (by decide)⟩

/-- C2, amended. With an interpreter that takes one line per `Parse` call, for every byte
string of at most 1024 bytes and every split of it into non-empty chunks: the loop of
`Accept` over one read per chunk, from an empty buffer, makes the same `Parse` calls (the
same lines, with the same replies) and the same writes as one `Read` that brings the whole
string, and that `Read` does end; and when that `Read` returns true (no reply had status
221) the buffer is the same at the end. (After a 221 reply the session is over, the chunks
behind it are never read, and the buffers differ.) -/
theorem C2_framing_independent_of_reads (P : Protocol σ) (hP : IsLineProtocol P) (fuel : Nat)
    (chunks : List Text) (c : Session σ τ M) (hne : ∀ ch ∈ chunks, ch ≠ [])
    (_hlen : chunks.flatten.length ≤ 1024) (hfuel : chunks.flatten.length ≤ fuel)
    (hline : c.line = []) :
    (Read P fuel { c with reads := [⟨chunks.flatten, none⟩] }).1 ≠ none ∧
    calls (readLoop P fuel chunks.length
        { c with reads := chunks.map fun ch => ⟨ch, none⟩ }).2.trace =
      calls (Read P fuel { c with reads := [⟨chunks.flatten, none⟩] }).2.trace ∧
    writes (readLoop P fuel chunks.length
        { c with reads := chunks.map fun ch => ⟨ch, none⟩ }).2.trace =
      writes (Read P fuel { c with reads := [⟨chunks.flatten, none⟩] }).2.trace ∧
    ((Read P fuel { c with reads := [⟨chunks.flatten, none⟩] }).1 = some true →
      (readLoop P fuel chunks.length
        { c with reads := chunks.map fun ch => ⟨ch, none⟩ }).2.line =
      (Read P fuel { c with reads := [⟨chunks.flatten, none⟩] }).2.line) := by
  have hc : stringsContains c.line CRLF = false := by rw [hline]; decide
  by_cases hs : chunks.flatten = []
  · -- no byte at all: no chunk, and the one `Read` is a read of zero bytes
    have hch : chunks = [] := by
      cases chunks with
      | nil => rfl
      | cons ch rest =>
        exfalso
        have h1 : ch ≠ [] := hne ch (List.mem_cons_self _ _)
        rw [List.flatten_cons, List.append_eq_nil] at hs
        exact h1 hs.1
    subst hch
    rw [Read_zero P fuel _ (by simp [connRead])]
    simp [readLoop, logf, connRead, calls]
  · obtain ⟨⟨r1, r2⟩, _, _⟩ := Read_of_chunk P hP.shrinks fuel
      ({ c with reads := [⟨chunks.flatten, none⟩] } : Session σ τ M) chunks.flatten [] rfl hs
      (by simp only [hline, List.length_nil, Nat.zero_add]; exact hfuel)
    obtain ⟨i1, i2, i3, i4, _⟩ := readLoop_chunks P hP fuel chunks
      ({ c with reads := chunks.map fun ch => ⟨ch, none⟩ } : Session σ τ M) hne rfl hc
      (by simp only [hline, List.length_nil, Nat.zero_add]; exact hfuel)
    have hW : Sim2 (Read P fuel ({ c with reads := [⟨chunks.flatten, none⟩] } : Session σ τ M))
        (run P (pushBytes ({ c with reads := chunks.map fun ch => ⟨ch, none⟩ } :
          Session σ τ M) chunks.flatten)) :=
      sim2_trans ⟨r1, r2⟩ (sim_run P ⟨rfl, rfl, rfl, rfl, rfl⟩)
    obtain ⟨w1, _, w3, _, w5, w6⟩ := hW
    refine ⟨by rw [w1]; exact i1, i2.trans w5.symm, i3.trans w6.symm, ?_⟩
    intro ht
    exact (i4 (by rw [← w1]; exact ht)).2.1.trans w3.symm

/-- C2 as stated fails when a reply has status 221: QUIT and NOOP in one read leave the line
NOOP in the buffer; QUIT and NOOP in two reads leave the buffer empty, for the loop of
`Accept` stops after the 221 reply and never reads the second chunk, and a second `Read`
run all the same would give NOOP to `Parse`. -/
theorem C2_counterexample_221_midway :
    IsLineProtocol demo ∧
    (Read demo 12 (demoSession [⟨bytes "QUIT\r\nNOOP\r\n", none⟩] [] [])).2.line =
      bytes "NOOP\r\n" ∧
    (readLoop demo 12 2
      (demoSession [⟨bytes "QUIT\r\n", none⟩, ⟨bytes "NOOP\r\n", none⟩] [] [])).2.line = [] ∧
    (Read demo 12 (Read demo 12
      (demoSession [⟨bytes "QUIT\r\n", none⟩, ⟨bytes "NOOP\r\n", none⟩] [] [])).2).2.line = [] ∧
    calls (Read demo 12 (demoSession [⟨bytes "QUIT\r\nNOOP\r\n", none⟩] [] [])).2.trace =
      [(bytes "QUIT", some ⟨221, [bytes "221 Bye\r\n"]⟩)] ∧
    calls (Read demo 12 (Read demo 12
      (demoSession [⟨bytes "QUIT\r\n", none⟩, ⟨bytes "NOOP\r\n", none⟩] [] [])).2).2.trace =
      [(bytes "QUIT", some ⟨221, [bytes "221 Bye\r\n"]⟩),
       (bytes "NOOP", some ⟨250, [bytes "250-Ok\r\n", bytes "250 Done\r\n"]⟩)] :=
  ⟨lineProtocol_isLineProtocol _ _, by decide, by decide, by decide, by decide, by decide⟩

/-- C2, amended, at work: the command EHLO in two reads is one line for `Parse`, the
same as in one read. -/
theorem C2_framing_independent_of_reads_witness :
    (∀ ch ∈ [bytes "EHLO examp", bytes "le.com\r\n"], ch ≠ []) ∧
    [bytes "EHLO examp", bytes "le.com\r\n"].flatten.length ≤ 1024 ∧
    calls (readLoop demo 1024 2
      (demoSession [⟨bytes "EHLO examp", none⟩, ⟨bytes "le.com\r\n", none⟩] [] [])).2.trace =
      [(bytes "EHLO example.com", some ⟨250, [bytes "250-Ok\r\n", bytes "250 Done\r\n"]⟩)] ∧
    calls (readLoop demo 1024 [bytes "EHLO examp", bytes "le.com\r\n"].length
        { demoSession [] [] [] with
          reads := [bytes "EHLO examp", bytes "le.com\r\n"].map fun ch => ⟨ch, none⟩ }).2.trace =
      calls (Read demo 1024
        { demoSession [] [] [] with
          reads := [⟨[bytes "EHLO examp", bytes "le.com\r\n"].flatten, none⟩] }).2.trace :=
  ⟨by decide, by decide, by decide,
    (C2_framing_independent_of_reads demo (lineProtocol_isLineProtocol _ _) 1024
      [bytes "EHLO examp", bytes "le.com\r\n"] (demoSession [] [] [])
      (by decide) (by decide) (by decide) rfl).2.1⟩

/-- C3, amended. For a reply that `Parse` returned in `Read`: when its status is 221, the
session writes its lines, closes the connection right after them, and does no read, no
call of `Parse` and no write after that, whatever is left in the buffer; so that reply is
the last write of the session. (The greeting is left out: `Accept` does not look at its
status.) Here `after221` finds the first reply of status 221 and the events after it. -/
theorem C3_close_after_221_reply (r : Reply) (post : List (Event M))
    (h : after221 (Accept P fuel remoteAddress reads writeErrs storage messageChan hostname
      p0).2.trace = some (r, post)) :
    r.Status = 221 ∧ ∃ ws tail, post = ws ++ Event.close :: tail ∧ IsWriteOf r ws ∧
      readsOf tail = [] ∧ parses tail = [] ∧ writes tail = [] :=
  Accept_after221 P fuel remoteAddress reads writeErrs storage messageChan hostname p0 r post h

/-- C3 as stated fails for the greeting: the interpreter `bye` greets with status 221, and
the session does not close after it: it reads the command NOOP, calls `Parse` and writes
the 250 reply, and closes only when the peer has closed. -/
theorem C3_counterexample_greeting_221 :
    (bye.Start 0).2.Status = 221 ∧
    (Accept bye 4 (bytes "10.0.0.7:2525") [⟨bytes "NOOP\r\n", none⟩] [] ()
      ([] : List Nat) (bytes "mailhog.example") 0).2.trace =
    [Event.log "[SMTP %s] Starting session" [LogArg.str (bytes "10.0.0.7:2525")],
     Event.log "[SMTP %s] Sent %d bytes: '%s'"
       [LogArg.str (bytes "10.0.0.7:2525"), LogArg.num 13, LogArg.str (bytes "221 Closing\\r\\n")],
     Event.write (bytes "221 Closing\r\n") false,
     Event.read (bytes "NOOP\r\n") none,
     Event.log "[SMTP %s] Received %d bytes: '%s'\n"
       [LogArg.str (bytes "10.0.0.7:2525"), LogArg.num 6, LogArg.str (bytes "NOOP\\r\\n")],
     Event.parse (bytes "NOOP\r\n") []
       (some ⟨250, [bytes "250-Ok\r\n", bytes "250 Done\r\n"]⟩),
     Event.log "[SMTP %s] Sent %d bytes: '%s'"
       [LogArg.str (bytes "10.0.0.7:2525"), LogArg.num 8, LogArg.str (bytes "250-Ok\\r\\n")],
     Event.write (bytes "250-Ok\r\n") false,
     Event.log "[SMTP %s] Sent %d bytes: '%s'"
       [LogArg.str (bytes "10.0.0.7:2525"), LogArg.num 10, LogArg.str (bytes "250 Done\\r\\n")],
     Event.write (bytes "250 Done\r\n") false,
     Event.read [] (some (bytes "EOF")),
     Event.log "[SMTP %s] Connection closed by remote host\n" [LogArg.str (bytes "10.0.0.7:2525")],
     Event.close,
     Event.log "[SMTP %s] Session ended" [LogArg.str (bytes "10.0.0.7:2525")],
     Event.close] := by
  decide

/-- C3, amended, at work: QUIT and NOOP come in one read; after the 221 reply to QUIT the
session closes and the line NOOP stays in the buffer, never given to `Parse`. -/
theorem C3_close_after_221_reply_witness :
    after221 (Accept demo 4 (bytes "10.0.0.7:2525") [⟨bytes "QUIT\r\nNOOP\r\n", none⟩] [] ()
      ([] : List Nat) (bytes "mailhog.example") 0).2.trace =
      some (⟨221, [bytes "221 Bye\r\n"]⟩,
        [Event.log "[SMTP %s] Sent %d bytes: '%s'"
          [LogArg.str (bytes "10.0.0.7:2525"), LogArg.num 9, LogArg.str (bytes "221 Bye\\r\\n")],
         Event.write (bytes "221 Bye\r\n") false,
         Event.close,
         Event.log "[SMTP %s] Session ended" [LogArg.str (bytes "10.0.0.7:2525")],
         Event.close]) ∧
    (Accept demo 4 (bytes "10.0.0.7:2525") [⟨bytes "QUIT\r\nNOOP\r\n", none⟩] [] ()
      ([] : List Nat) (bytes "mailhog.example") 0).2.line = bytes "NOOP\r\n" ∧
    ((221 : Int) = 221 ∧ ∃ ws tail,
      [Event.log "[SMTP %s] Sent %d bytes: '%s'"
          [LogArg.str (bytes "10.0.0.7:2525"), LogArg.num 9, LogArg.str (bytes "221 Bye\\r\\n")],
         Event.write (bytes "221 Bye\r\n") false,
         Event.close,
         Event.log "[SMTP %s] Session ended" [LogArg.str (bytes "10.0.0.7:2525")],
         (Event.close : Event Nat)] = ws ++ Event.close :: tail ∧
      IsWriteOf ⟨221, [bytes "221 Bye\r\n"]⟩ ws ∧
      readsOf tail = [] ∧ parses tail = [] ∧ writes tail = []) :=
  ⟨by decide, by decide,
    C3_close_after_221_reply demo 4 (bytes "10.0.0.7:2525") [⟨bytes "QUIT\r\nNOOP\r\n", none⟩]
      [] () ([] : List Nat) (bytes "mailhog.example") 0 ⟨221, [bytes "221 Bye\r\n"]⟩
      [Event.log "[SMTP %s] Sent %d bytes: '%s'"
          [LogArg.str (bytes "10.0.0.7:2525"), LogArg.num 9, LogArg.str (bytes "221 Bye\\r\\n")],
         Event.write (bytes "221 Bye\r\n") false,
         Event.close,
         Event.log "[SMTP %s] Session ended" [LogArg.str (bytes "10.0.0.7:2525")],
         Event.close] (by decide)⟩

/-- C4. A `Read` whose underlying read returns zero bytes, with an error or without one,
returns false, closes the connection once, calls `Parse` zero times, writes nothing and
leaves `c.line` as it was: all it does is the read, one log line and the close. -/
theorem C4_zero_byte_read (P : Protocol σ) (fuel : Nat) (c : Session σ τ M)
    (h : (connRead c).1.data = []) :
    (Read P fuel c).1 = some false ∧
    (Read P fuel c).2.trace = c.trace ++
      [Event.read [] (connRead c).1.err,
       Event.log "[SMTP %s] Connection closed by remote host\n" [LogArg.str c.remoteAddress],
       Event.close] ∧
    (Read P fuel c).2.line = c.line ∧
    parses (Read P fuel c).2.trace = parses c.trace ∧
    writes (Read P fuel c).2.trace = writes c.trace ∧
    closeCount (Read P fuel c).2.trace = closeCount c.trace + 1 := by
  have ht : (Read P fuel c).2.trace = c.trace ++
      [Event.read [] (connRead c).1.err,
       Event.log "[SMTP %s] Connection closed by remote host\n" [LogArg.str c.remoteAddress],
       Event.close] := by
    rw [Read_zero P fuel c h]
    simp only [connClose_trace, logf, connRead_trace, h, connRead_remoteAddress,
      List.append_assoc, List.cons_append, List.nil_append]
    rfl
  refine ⟨by rw [Read_zero P fuel c h], ht, by rw [Read_zero P fuel c h]; simp, ?_, ?_, ?_⟩
  · rw [ht]; simp
  · rw [ht]; simp
  · rw [ht]; simp

/-- C4 at work: a peer that closes without an error, while a full line `QUIT` waits in the
buffer. -/
theorem C4_zero_byte_read_witness :
    (connRead (demoSession [⟨[], none⟩] [] (bytes "QUIT\r\n"))).1.data = [] ∧
    (Read demo 4 (demoSession [⟨[], none⟩] [] (bytes "QUIT\r\n"))).2.line = bytes "QUIT\r\n" :=
  ⟨by decide, (C4_zero_byte_read demo 4 (demoSession [⟨[], none⟩] [] (bytes "QUIT\r\n"))
    (by decide)).2.2.1.trans (by decide)⟩

/-- C5. One call of `acceptMessage` does, in this order and besides one log line: one
`Store` call and one send on the channel, both with the message that `Parse` made of the
raw capture and the hostname of the session; the send comes after `Store` has returned,
with an error or without. -/
theorem C5_store_then_send (D : Data R M) (S : Storage τ M) (c : Session σ τ M) (msg : R) :
    (acceptMessage D S c msg).2.trace = c.trace ++
      [Event.log "[SMTP %s] Storing message %s"
         [LogArg.str c.remoteAddress, LogArg.str (D.ID (D.Parse msg c.hostname))],
       Event.store (D.Parse msg c.hostname) (S.Store c.storage (D.Parse msg c.hostname)).2.1
         (S.Store c.storage (D.Parse msg c.hostname)).2.2,
       Event.send (D.Parse msg c.hostname)] ∧
    (acceptMessage D S c msg).2.messageChan = c.messageChan ++ [D.Parse msg c.hostname] ∧
    (acceptMessage D S c msg).2.storage = (S.Store c.storage (D.Parse msg c.hostname)).1 := by
  refine ⟨?_, rfl, rfl⟩
  simp only [acceptMessage, logf, List.append_assoc, List.cons_append, List.nil_append]
  rfl

/-- C6. The result of `acceptMessage` is the pair of id and error that `Store` returned:
the id of the storage, whatever id the parser gave, and the error of the storage when it
failed. With an error or without, the message is sent on the channel, and the buffer, the
interpreter and the connection (its scripts and its reads, writes and closes) stay as they
were. The second part shows a run where the two ids differ and a run where `Store` fails. -/
theorem C6_returns_store_result (D : Data R M) (S : Storage τ M) (c : Session σ τ M) (msg : R) :
    ((acceptMessage D S c msg).1 =
        ((S.Store c.storage (D.Parse msg c.hostname)).2.1,
         (S.Store c.storage (D.Parse msg c.hostname)).2.2) ∧
      (acceptMessage D S c msg).2.messageChan = c.messageChan ++ [D.Parse msg c.hostname] ∧
      (acceptMessage D S c msg).2.line = c.line ∧
      (acceptMessage D S c msg).2.proto = c.proto ∧
      (acceptMessage D S c msg).2.reads = c.reads ∧
      (acceptMessage D S c msg).2.writeErrs = c.writeErrs ∧
      readsOf (acceptMessage D S c msg).2.trace = readsOf c.trace ∧
      writes (acceptMessage D S c msg).2.trace = writes c.trace ∧
      closeCount (acceptMessage D S c msg).2.trace = closeCount c.trace) ∧
    ((acceptMessage demoData demoStorage storeSession (bytes "Subject: hi")).1 =
        (bytes "db-7", none) ∧
      demoData.ID (demoData.Parse (bytes "Subject: hi") storeSession.hostname) =
        bytes "id-1@mailhog.example" ∧
      (acceptMessage demoData demoStorage storeSession []).1 =
        ([], some (bytes "empty message")) ∧
      (acceptMessage demoData demoStorage storeSession []).2.messageChan =
        [(bytes "id-1@mailhog.example", [])]) := by
  refine ⟨⟨rfl, rfl, rfl, rfl, rfl, rfl, ?_, ?_, ?_⟩, by decide⟩
  all_goals simp [acceptMessage, logf]

/-- C7, amended. A read failure ends the loop: a `Read` whose underlying read returns an
error returns false, with no call of `Parse` and no write, and the connection is closed
when `Accept` returns (its last event is the deferred close). A write failure does not end
anything: `Write` drops the result of the write, and a session with failing writes returns
as, and does event for event what, the same session does on a connection whose writes all
succeed. -/
theorem C7_read_failure_ends_write_failure_ignored (P : Protocol σ) (fuel : Nat)
    (remoteAddress : Text) (reads : List ReadResult) (writeErrs : List Bool) (storage : τ)
    (messageChan : List M) (hostname : Text) (p0 : σ) (c : Session σ τ M) (e : Text)
    (he : (connRead c).1.err = some e) :
    ((Read P fuel c).1 = some false ∧
      parses (Read P fuel c).2.trace = parses c.trace ∧
      writes (Read P fuel c).2.trace = writes c.trace ∧
      readsOf (Read P fuel c).2.trace = readsOf c.trace ++ [(connRead c).1] ∧
      (Read P fuel c).2.line = c.line) ∧
    ((Accept P fuel remoteAddress reads writeErrs storage messageChan hostname p0).1 = some () →
      (Accept P fuel remoteAddress reads writeErrs storage messageChan hostname
        p0).2.trace.getLast? = some Event.close) ∧
    Accept P fuel remoteAddress reads [] storage messageChan hostname p0 =
      ((Accept P fuel remoteAddress reads writeErrs storage messageChan hostname p0).1,
       noFailure
        (Accept P fuel remoteAddress reads writeErrs storage messageChan hostname p0).2) := by
  refine ⟨?_, ?_, noFailure_Accept P fuel remoteAddress reads writeErrs storage messageChan
    hostname p0⟩
  · by_cases h : (connRead c).1.data = []
    · rw [Read_zero P fuel c h]
      simp [logf, connRead_trace]
    · rw [Read_err P fuel c e h he]
      simp [logf, connRead_trace]
  · intro h
    obtain ⟨f, a, gws, evs, tail, h1, _, _, _, _, _, h7⟩ :=
      Accept_trace P fuel remoteAddress reads writeErrs storage messageChan hostname p0
    obtain ⟨⟨g, b, rfl⟩, _⟩ := h7 h
    rw [h1]
    rw [show Event.log f a :: (gws ++ (evs ++ [Event.log g b, Event.close])) =
      (Event.log f a :: (gws ++ (evs ++ [Event.log g b]))) ++ [Event.close] by simp]
    exact List.getLast?_concat _

/-- C7 as stated fails: the write of the greeting fails, and the session goes on: it reads
the command NOOP, calls `Parse`, writes the two lines of the 250 reply (the first of these
writes fails too), and reads again. -/
theorem C7_counterexample_failed_write :
    (Accept demo 4 (bytes "10.0.0.7:2525") [⟨bytes "NOOP\r\n", none⟩] [true, true] ()
      ([] : List Nat) (bytes "mailhog.example") 0).2.trace =
    [Event.log "[SMTP %s] Starting session" [LogArg.str (bytes "10.0.0.7:2525")],
     Event.log "[SMTP %s] Sent %d bytes: '%s'"
       [LogArg.str (bytes "10.0.0.7:2525"), LogArg.num 19,
        LogArg.str (bytes "220 mailhog ESMTP\\r\\n")],
     Event.write (bytes "220 mailhog ESMTP\r\n") true,
     Event.read (bytes "NOOP\r\n") none,
     Event.log "[SMTP %s] Received %d bytes: '%s'\n"
       [LogArg.str (bytes "10.0.0.7:2525"), LogArg.num 6, LogArg.str (bytes "NOOP\\r\\n")],
     Event.parse (bytes "NOOP\r\n") []
       (some ⟨250, [bytes "250-Ok\r\n", bytes "250 Done\r\n"]⟩),
     Event.log "[SMTP %s] Sent %d bytes: '%s'"
       [LogArg.str (bytes "10.0.0.7:2525"), LogArg.num 8, LogArg.str (bytes "250-Ok\\r\\n")],
     Event.write (bytes "250-Ok\r\n") true,
     Event.log "[SMTP %s] Sent %d bytes: '%s'"
       [LogArg.str (bytes "10.0.0.7:2525"), LogArg.num 10, LogArg.str (bytes "250 Done\\r\\n")],
     Event.write (bytes "250 Done\r\n") false,
     Event.read [] (some (bytes "EOF")),
     Event.log "[SMTP %s] Connection closed by remote host\n" [LogArg.str (bytes "10.0.0.7:2525")],
     Event.close,
     Event.log "[SMTP %s] Session ended" [LogArg.str (bytes "10.0.0.7:2525")],
     Event.close] := by
  decide

/-- C7, amended, at work: a read that brings bytes and an error, with a full line waiting
in the buffer. -/
theorem C7_read_failure_ends_write_failure_ignored_witness :
    (connRead (demoSession [⟨bytes "NOOP\r\n", some (bytes "reset by peer")⟩] []
      (bytes "QUIT\r\n"))).1.err = some (bytes "reset by peer") ∧
    (Read demo 4 (demoSession [⟨bytes "NOOP\r\n", some (bytes "reset by peer")⟩] []
      (bytes "QUIT\r\n"))).1 = some false ∧
    parses (Read demo 4 (demoSession [⟨bytes "NOOP\r\n", some (bytes "reset by peer")⟩] []
      (bytes "QUIT\r\n"))).2.trace = [] :=
  ⟨by decide,
    (C7_read_failure_ends_write_failure_ignored demo 4 (bytes "10.0.0.7:2525")
      [⟨bytes "NOOP\r\n", none⟩] [true, true] () ([] : List Nat) (bytes "mailhog.example") 0
      (demoSession [⟨bytes "NOOP\r\n", some (bytes "reset by peer")⟩] [] (bytes "QUIT\r\n"))
      (bytes "reset by peer") (by decide)).1.1,
    (C7_read_failure_ends_write_failure_ignored demo 4 (bytes "10.0.0.7:2525")
      [⟨bytes "NOOP\r\n", none⟩] [true, true] () ([] : List Nat) (bytes "mailhog.example") 0
      (demoSession [⟨bytes "NOOP\r\n", some (bytes "reset by peer")⟩] [] (bytes "QUIT\r\n"))
      (bytes "reset by peer") (by decide)).1.2.1.trans (by decide)⟩

/-- C8. In a run of `Accept` in which no write fails, the bytes written to the connection
are the lines of the greeting followed by the lines of the replies that `Parse` returned,
in the order `Parse` returned them, each line as it is; the greeting is written before the
first read (it follows the first log line, and all later writes are replies of `Parse`);
and after the first 221 reply of `Parse` there is no further call of `Parse` and no write
but the lines of that reply. -/
theorem C8_written_stream
    (h : ∀ w ∈ writes (Accept P fuel remoteAddress reads writeErrs storage messageChan hostname
      p0).2.trace, w.2 = false) :
    written (Accept P fuel remoteAddress reads writeErrs storage messageChan hostname
        p0).2.trace =
      ((P.Start p0).2.lines ++ replyLines (parses (Accept P fuel remoteAddress reads writeErrs
        storage messageChan hostname p0).2.trace)).flatten ∧
    (∃ f a gws rest,
      (Accept P fuel remoteAddress reads writeErrs storage messageChan hostname p0).2.trace =
        Event.log f a :: (gws ++ rest) ∧
      IsWriteOf (P.Start p0).2 gws ∧ (writes rest).map Prod.fst = replyLines (parses rest)) ∧
    (∀ r post,
      after221 (Accept P fuel remoteAddress reads writeErrs storage messageChan hostname
        p0).2.trace = some (r, post) →
      parses post = [] ∧ (writes post).map Prod.fst = r.lines) := by
  obtain ⟨f, a, gws, evs, tail, h1, ⟨g1, g2, g3, g4⟩, _, h4, _, h6, h7⟩ :=
    Accept_trace P fuel remoteAddress reads writeErrs storage messageChan hostname p0
  have htail : parses tail = [] ∧ writes tail = [] := by
    rcases hA : (Accept P fuel remoteAddress reads writeErrs storage messageChan hostname
      p0).1 with _ | _
    · rw [(h6 hA).1]; simp
    · obtain ⟨⟨g, b, rfl⟩, _⟩ := h7 hA
      simp
  have hrest : (writes (evs ++ tail)).map Prod.fst = replyLines (parses (evs ++ tail)) := by
    simp [htail.1, htail.2, h4]
  refine ⟨?_, ⟨f, a, gws, evs ++ tail, h1, ⟨g1, g2, g3, g4⟩, hrest⟩, ?_⟩
  · rw [written_eq_of_no_failure _ h, h1]
    simp only [writes_cons_log, writes_append, List.map_append, g1, parses_cons_log,
      parses_append, g3, List.nil_append]
    rw [← List.map_append, ← writes_append, hrest, parses_append]
  · intro r post hp
    obtain ⟨_, ws, tl, rfl, ⟨w1, _, w3, _⟩, _, t2, t3⟩ :=
      Accept_after221 P fuel remoteAddress reads writeErrs storage messageChan hostname p0
        r post hp
    simp [w1, w3, t2, t3]

/-- C8 at work: a session of three reads, the first two with the halves of one command. -/
theorem C8_written_stream_witness :
    (∀ w ∈ writes (Accept demo 4 (bytes "10.0.0.7:2525")
      [⟨bytes "EHLO examp", none⟩, ⟨bytes "le.com\r\n", none⟩, ⟨bytes "QUIT\r\n", none⟩] [] ()
      ([] : List Nat) (bytes "mailhog.example") 0).2.trace, w.2 = false) ∧
    written (Accept demo 4 (bytes "10.0.0.7:2525")
      [⟨bytes "EHLO examp", none⟩, ⟨bytes "le.com\r\n", none⟩, ⟨bytes "QUIT\r\n", none⟩] [] ()
      ([] : List Nat) (bytes "mailhog.example") 0).2.trace =
      bytes "220 mailhog ESMTP\r\n250-Ok\r\n250 Done\r\n221 Bye\r\n" :=
  ⟨by decide, (C8_written_stream demo 4 (bytes "10.0.0.7:2525")
      [⟨bytes "EHLO examp", none⟩, ⟨bytes "le.com\r\n", none⟩, ⟨bytes "QUIT\r\n", none⟩] [] ()
      ([] : List Nat) (bytes "mailhog.example") 0 (by decide)).1.trans (by decide)⟩

/-- C9. `Read` calls `Parse` only on a buffer that contains CRLF, in every `Read` and so in
every run of `Accept`; and when `Read` returns true, `c.line` has no CRLF and is the
remainder of the last `Parse` call of that `Read`, or, when there was none, the old
`c.line` followed by the bytes just read. -/
theorem C9_parse_only_on_complete_line (c : Session σ τ M) :
    (∀ p ∈ parses (Accept P fuel remoteAddress reads writeErrs storage messageChan hostname
      p0).2.trace, stringsContains p.1 CRLF = true) ∧
    ∃ evs, (Read P fuel c).2.trace = c.trace ++ evs ∧
      (∀ p ∈ parses evs, stringsContains p.1 CRLF = true) ∧
      ((Read P fuel c).1 = some true →
        stringsContains (Read P fuel c).2.line CRLF = false ∧
        (Read P fuel c).2.line =
          ((parses evs).getLast?.map fun p => p.2.1).getD (c.line ++ (connRead c).1.data)) := by
  constructor
  · obtain ⟨f, a, gws, evs, tail, h1, ⟨_, _, g3, _⟩, h3, _, _, h6, h7⟩ :=
      Accept_trace P fuel remoteAddress reads writeErrs storage messageChan hostname p0
    have htail : parses tail = [] := by
      rcases hA : (Accept P fuel remoteAddress reads writeErrs storage messageChan hostname
        p0).1 with _ | _
      · rw [(h6 hA).1]; simp
      · obtain ⟨⟨g, b, rfl⟩, _⟩ := h7 hA
        simp
    intro p hp
    rw [h1] at hp
    simp only [parses_cons_log, parses_append, g3, htail, List.nil_append,
      List.append_nil] at hp
    exact h3 p hp
  · obtain ⟨evs, h1, _, h3, _, _, _, h7⟩ := Read_trace P fuel c
    refine ⟨Event.read (connRead c).1.data (connRead c).1.err :: evs, h1, by simpa using h3, ?_⟩
    intro ht
    simpa using h7 ht

/-- C9 at work: the buffer holds the start of a command, the read brings its end, an empty
line and the start of the next command: two calls of `Parse`, and the start of the next
command stays in the buffer. -/
theorem C9_parse_only_on_complete_line_witness :
    (Read demo 4 (demoSession [⟨bytes "O x\r\n\r\nNO", none⟩] [] (bytes "EHL"))).1 = some true ∧
    (Read demo 4 (demoSession [⟨bytes "O x\r\n\r\nNO", none⟩] [] (bytes "EHL"))).2.line =
      bytes "NO" ∧
    parses (Read demo 4 (demoSession [⟨bytes "O x\r\n\r\nNO", none⟩] [] (bytes "EHL"))).2.trace =
      [(bytes "EHLO x\r\n\r\nNO", bytes "\r\nNO",
          some ⟨250, [bytes "250-Ok\r\n", bytes "250 Done\r\n"]⟩),
       (bytes "\r\nNO", bytes "NO", none)] ∧
    ((∀ p ∈ parses (Accept demo 4 (bytes "10.0.0.7:2525") [⟨bytes "NOOP\r\n", none⟩] [] ()
      ([] : List Nat) (bytes "mailhog.example") 0).2.trace, stringsContains p.1 CRLF = true) ∧
    ∃ evs, (Read demo 4 (demoSession [⟨bytes "O x\r\n\r\nNO", none⟩] [] (bytes "EHL"))).2.trace =
        (demoSession [⟨bytes "O x\r\n\r\nNO", none⟩] [] (bytes "EHL")).trace ++ evs ∧
      (∀ p ∈ parses evs, stringsContains p.1 CRLF = true) ∧
      ((Read demo 4 (demoSession [⟨bytes "O x\r\n\r\nNO", none⟩] [] (bytes "EHL"))).1 = some true →
        stringsContains (Read demo 4
          (demoSession [⟨bytes "O x\r\n\r\nNO", none⟩] [] (bytes "EHL"))).2.line CRLF = false ∧
        (Read demo 4 (demoSession [⟨bytes "O x\r\n\r\nNO", none⟩] [] (bytes "EHL"))).2.line =
          ((parses evs).getLast?.map fun p => p.2.1).getD
            ((demoSession [⟨bytes "O x\r\n\r\nNO", none⟩] [] (bytes "EHL")).line ++
              (connRead (demoSession [⟨bytes "O x\r\n\r\nNO", none⟩] [] (bytes "EHL"))).1.data))) :=
  ⟨by decide, by decide, by decide,
    C9_parse_only_on_complete_line demo 4 (bytes "10.0.0.7:2525") [⟨bytes "NOOP\r\n", none⟩] [] ()
      ([] : List Nat) (bytes "mailhog.example") 0
      (demoSession [⟨bytes "O x\r\n\r\nNO", none⟩] [] (bytes "EHL"))⟩

/-- C10. With an interpreter whose `Parse` returns a shorter remainder whenever its input
contains CRLF, the loop of `Read` on a buffer of length L ends within any fuel of at least
L, after at most L calls of `Parse`, and with the same result for every such fuel. The
interpreter `stuck`, whose remainder is always a suffix of its input (the input itself),
never ends the loop on a buffer that contains CRLF: whatever the fuel, the fuel runs out,
after that many calls of `Parse`, and the buffer is as before. -/
theorem C10_drain_termination (P : Protocol σ) (hP : Shrinks P) (fuel : Nat)
    (c : Session σ τ M) (hf : c.line.length ≤ fuel) :
    ((drain P fuel c).1 ≠ none ∧
      (parses (drain P fuel c).2.trace).length ≤ (parses c.trace).length + c.line.length ∧
      drain P fuel c = drain P c.line.length c) ∧
    ((∀ st buf, (stuck.Parse st buf).2.1 <:+ buf) ∧
      ∀ (n : Nat) (d : Session Unit τ M), stringsContains d.line CRLF = true →
        (drain stuck n d).1 = none ∧ (drain stuck n d).2.line = d.line ∧
        (parses (drain stuck n d).2.trace).length = (parses d.trace).length + n) :=
  ⟨⟨(drain_terminates P hP fuel c hf).1, (drain_terminates P hP fuel c hf).2,
      drain_fuel P hP fuel c.line.length c hf (Nat.le_refl _)⟩,
    fun _ _ => List.suffix_refl _, fun n d h => drain_stuck n d h⟩

/-- C10 at work: `demo` takes one line per call; a buffer of 14 bytes with two lines is done
with fuel 14, in two calls of `Parse`. -/
theorem C10_drain_termination_witness :
    (demoSession [] [] (bytes "NOOP\r\nRSET\r\nDA")).line.length ≤ 14 ∧
    (drain demo 14 (demoSession [] [] (bytes "NOOP\r\nRSET\r\nDA"))).1 = some true ∧
    (parses (drain demo 14 (demoSession [] [] (bytes "NOOP\r\nRSET\r\nDA"))).2.trace).length = 2 ∧
    (drain stuck 14
      ({ demoSession [] [] (bytes "NOOP\r\n") with proto := () } : Session Unit Unit Nat)).1 =
        none ∧
    ((drain demo 14 (demoSession [] [] (bytes "NOOP\r\nRSET\r\nDA"))).1 ≠ none ∧
      (parses (drain demo 14 (demoSession [] [] (bytes "NOOP\r\nRSET\r\nDA"))).2.trace).length ≤
        (parses (demoSession [] [] (bytes "NOOP\r\nRSET\r\nDA")).trace).length +
          (demoSession [] [] (bytes "NOOP\r\nRSET\r\nDA")).line.length ∧
      drain demo 14 (demoSession [] [] (bytes "NOOP\r\nRSET\r\nDA")) =
        drain demo (demoSession [] [] (bytes "NOOP\r\nRSET\r\nDA")).line.length
          (demoSession [] [] (bytes "NOOP\r\nRSET\r\nDA"))) :=
  ⟨by decide, by decide, by decide, by decide,
    (C10_drain_termination demo (lineProtocol_isLineProtocol _ _).shrinks 14
      (demoSession [] [] (bytes "NOOP\r\nRSET\r\nDA")) (by decide)).1⟩

end Claims

end MailHog
